import Mathlib

/-!
MessagePack codec (alzerid/msgpack): embedding and verification

A shallow embedding of `encoder.go`, `decoder.go` and `msgpack.go`.

* Bytes are natural numbers below 256; byte strings and Go strings are `List Nat`.
* Go's fixed-width integers are `Int` / `Nat` with the wrap-around written out
  (`toSigned`, `toUnsigned`).
* A pointer cast `(*[n]byte)(unsafe.Pointer(&v))` is the little-endian byte image of `v`
  (the source assumes a little-endian machine, see the TODO in `EncodeInt`).
* The sink is the `bytes.Buffer` that `Marshal` creates, the source is the `bytes.Reader`
  that `Unmarshal` creates; both are threaded through the functions explicitly.
* A Go `error` result and a Go panic are the two non-`nil` cases of `Outcome`.
-/

set_option autoImplicit false

namespace Msgpack

/-! ## Machine integers and byte images -/

/-- Conversion to an unsigned integer of `bits` bits: the low `bits` bits of `x`. -/
def toUnsigned (bits : Nat) (x : Int) : Nat := (x % 2 ^ bits).toNat

/-- Conversion to a signed integer of `bits` bits: the low `bits` bits of `x` read as
two's complement. -/
def toSigned (bits : Nat) (x : Int) : Int :=
  (x + 2 ^ (bits - 1)) % 2 ^ bits - 2 ^ (bits - 1)

/-- Go `uint8(x)`. -/
def uint8 (x : Int) : Nat := toUnsigned 8 x

/-- Go `uint16(x)`. -/
def uint16 (x : Int) : Nat := toUnsigned 16 x

/-- Go `uint32(x)`. -/
def uint32 (x : Int) : Nat := toUnsigned 32 x

/-- Go `uint64(x)`. -/
def uint64 (x : Int) : Nat := toUnsigned 64 x

/-- Go `int8(x)`. -/
def int8 (x : Int) : Int := toSigned 8 x

/-- Go `int64(x)`. -/
def int64 (x : Int) : Int := toSigned 64 x

/-- The `n` low-order bytes of `v`, least significant first: the memory image of an
unsigned integer on a little-endian machine. -/
def leBytes : Nat → Nat → List Nat
  | 0, _ => []
  | n + 1, v => v % 256 :: leBytes n (v / 256)

/-- The unsigned integer whose little-endian memory image is `b`. -/
def ofLE : List Nat → Nat
  | [] => 0
  | b :: bs => b + 256 * ofLE bs

/-- The 8 bytes in memory of a 64-bit variable holding the bit pattern `bits`; a cast to
`*[n]byte` followed by `[:]` sees the first `n` of them. -/
def memBytes (bits : Nat) : List Nat := leBytes 8 bits

/-- The `n` bytes of `v` most significant byte first (big-endian), as the wire format
wants them. -/
def bigEndian (n : Nat) (v : Nat) : List Nat :=
  ((List.range n).map (fun i => v / 256 ^ i % 256)).reverse

/-- The body of the loop of source `reverseByte`: `b[i], b[blen-i-1] = b[blen-i-1], b[i]`. -/
def swapAt (blen : Nat) (b : List Nat) (i : Nat) : List Nat :=
  (b.set i (b.getD (blen - i - 1) 0)).set (blen - i - 1) (b.getD i 0)

/-- Source `reverseByte`: swap `b[i]` and `b[blen-i-1]` for `i < blen/2`. -/
def reverseByte (b : List Nat) : List Nat :=
  let blen := b.length
  (List.range (blen / 2)).foldl (swapAt blen) b

/-! ## Errors, sink and source -/

/-- The error values the codec can return. -/
inductive Error
  | errFixNumOutOfBounds
  | EOF
  deriving DecidableEq, Repr

/-- What a call produced besides its results: `nil` (no error), an `error` value, or a
panic. -/
inductive Outcome
  | nil
  | err (e : Error)
  | panicked (msg : String)
  deriving DecidableEq, Repr

/-- The sink: the contents of a `bytes.Buffer`, which implements `io.Writer` and
`io.ByteWriter`. -/
abbrev Writer := List Nat

/-- Method `bytes.Buffer.Write`: appends, never fails. -/
def Writer.Write (wtr : Writer) (p : List Nat) : Writer × Outcome := (wtr ++ p, .nil)

/-- Method `bytes.Buffer.WriteByte`: appends, never fails. -/
def Writer.WriteByte (wtr : Writer) (b : Nat) : Writer × Outcome := (wtr ++ [b], .nil)

/-- Source `writeByte`: the sink is an `io.ByteWriter`, so the first branch is taken. -/
def writeByte (wtr : Writer) (b : Nat) : Writer × Outcome := wtr.WriteByte b

/-- The source: the unread bytes of a `bytes.Reader` (or `bytes.Buffer`). -/
abbrev Reader := List Nat

/-- Method `ReadByte`: `io.EOF` when nothing is left. -/
def Reader.ReadByte (rdr : Reader) : Reader × Nat × Outcome :=
  match rdr with
  | [] => ([], 0, .err .EOF)
  | b :: rest => (rest, b, .nil)

/-- Method `Read` into a zeroed buffer of `n` bytes: `io.EOF` when nothing is left,
otherwise copies as many bytes as are available (at most `n`) and reports no error.
The second component is the buffer after the call. -/
def Reader.Read (rdr : Reader) (n : Nat) : Reader × List Nat × Outcome :=
  match rdr with
  | [] => ([], List.replicate n 0, .err .EOF)
  | _ :: _ => (rdr.drop n, rdr.take n ++ List.replicate (n - (rdr.take n).length) 0, .nil)

/-- Source `readByte`: the source is an `io.ByteReader`, so the first branch is taken. -/
def readByte (rdr : Reader) : Reader × Nat × Outcome := rdr.ReadByte

/-! ## Kinds (msgpack.go) -/

/-- Source `type Kind byte`. -/
abbrev Kind := Nat

/-- Control byte of the signed 8-bit envelope. -/
def Int8 : Kind := 0xd0
/-- Control byte of the signed 16-bit envelope. -/
def Int16 : Kind := 0xd1
/-- Control byte of the signed 32-bit envelope. -/
def Int32 : Kind := 0xd2
/-- Control byte of the signed 64-bit envelope. -/
def Int64 : Kind := 0xd3
/-- Control byte of the unsigned 8-bit envelope. -/
def Uint8 : Kind := 0xcc
/-- Control byte of the unsigned 16-bit envelope. -/
def Uint16 : Kind := 0xcd
/-- Control byte of the unsigned 32-bit envelope. -/
def Uint32 : Kind := 0xce
/-- Control byte of the unsigned 64-bit envelope. -/
def Uint64 : Kind := 0xcf
/-- Control bits of the negative fixnum. -/
def FixInt : Kind := 0xe0
/-- Control bit of the positive fixnum. -/
def FixUint : Kind := 0x00

/-! ## Integer encoders (encoder.go) -/

/-- Source `encodeFixNumInt(wtr, val int8)`. Write errors are ignored by the source. -/
def encodeFixNumInt (wtr : Writer) (val : Int) : Writer × Outcome :=
  if val ≤ 0x7F ∧ val ≥ 0 then
    let nval := 0x00 ||| (uint8 val &&& 0x7F)
    ((wtr.WriteByte nval).1, .nil)
  else if val < 0 ∧ ((uint8 val ^^^ 0xFF) + 1) % 256 < 0x1F then
    let nval := 0xE0 ||| (((uint8 val ^^^ 0xFF) + 1) % 256)
    ((wtr.WriteByte nval).1, .nil)
  else
    (wtr, .err .errFixNumOutOfBounds)

/-- Source `EncodeInt(wtr, val int64, bsize int)`. -/
def EncodeInt (wtr : Writer) (val : Int) (bsize : Int) : Writer × Outcome :=
  let bsize := Int.tdiv bsize 8
  if (val ≤ 0x7f ∧ val ≥ 0) ∨ (val < 0 ∧ int64 (Int.xor val 0xff + 1) < 0x1f) then
    encodeFixNumInt wtr (int8 val)
  else
    let cb : Nat × List Nat :=
      if bsize = 1 then (0xd0, (memBytes (uint64 val)).take 1)
      else if bsize = 2 then (0xd1, (memBytes (uint64 val)).take 2)
      else if bsize = 4 then (0xd2, (memBytes (uint64 val)).take 4)
      else if bsize = 8 then (0xd3, (memBytes (uint64 val)).take 8)
      else (0, [])
    match writeByte wtr cb.1 with
    | (wtr, .nil) =>
      match wtr.Write (reverseByte cb.2) with
      | (wtr, .nil) => (wtr, .nil)
      | (wtr, o) => (wtr, o)
    | (wtr, o) => (wtr, o)

/-- Source `EncodeUint(wtr, val uint64, bsize int)`. -/
def EncodeUint (wtr : Writer) (val : Nat) (bsize : Int) : Writer × Outcome :=
  let bsize := Int.tdiv bsize 8
  if val ≤ 0x7f ∧ val ≥ 0 then
    encodeFixNumInt wtr (int8 val)
  else
    let cb : Nat × List Nat :=
      if bsize = 1 then (0xcc, (memBytes val).take 1)
      else if bsize = 2 then (0xcd, (memBytes val).take 2)
      else if bsize = 4 then (0xce, (memBytes val).take 4)
      else if bsize = 8 then (0xcf, (memBytes val).take 8)
      else (0, [])
    match writeByte wtr cb.1 with
    | (wtr, .nil) =>
      match wtr.Write (reverseByte cb.2) with
      | (wtr, .nil) => (wtr, .nil)
      | (wtr, o) => (wtr, o)
    | (wtr, o) => (wtr, o)

/-! ## Other scalar encoders (encoder.go) -/

/-- Source `EncodeBool`. Write errors are ignored by the source. -/
def EncodeBool (wtr : Writer) (val : Bool) : Writer × Outcome :=
  let bval := if val then 0xc3 else 0xc2
  ((wtr.WriteByte bval).1, .nil)

/-- Function `io.WriteString` on the sink. -/
def WriteString (wtr : Writer) (s : List Nat) : Writer × Outcome := wtr.Write s

/-- Source `EncodeString`; `s` is the byte sequence of the Go string. -/
def EncodeString (wtr : Writer) (s : List Nat) : Writer × Outcome :=
  let l := s.length
  let hdr : Writer × Outcome :=
    if l ≤ 31 then
      writeByte wtr ((0xa0 ||| l) % 256)
    else if l ≤ 255 then
      match writeByte wtr 0xd9 with
      | (wtr, .nil) => writeByte wtr (l % 256)
      | (wtr, o) => (wtr, o)
    else if l ≤ 65535 then
      match writeByte wtr 0xda with
      | (wtr, .nil) => wtr.Write (reverseByte (leBytes 2 (l % 2 ^ 16)))
      | (wtr, o) => (wtr, o)
    else if l ≤ 4294967295 then
      match writeByte wtr 0xdb with
      | (wtr, .nil) => wtr.Write (reverseByte (leBytes 4 (l % 2 ^ 32)))
      | (wtr, o) => (wtr, o)
    else
      (wtr, .panicked "String larger than 4 gigs!")
  match hdr with
  | (wtr, .nil) => WriteString wtr s
  | (wtr, o) => (wtr, o)

/-- Source `EncodeBin`. -/
def EncodeBin (wtr : Writer) (b : List Nat) : Writer × Outcome :=
  let l := b.length
  let hdr : Writer × Outcome :=
    if l ≤ 255 then
      match writeByte wtr 0xc4 with
      | (wtr, .nil) => writeByte wtr (l % 256)
      | (wtr, o) => (wtr, o)
    else if l ≤ 65535 then
      match writeByte wtr 0xc5 with
      | (wtr, .nil) => wtr.Write (reverseByte (leBytes 2 (l % 2 ^ 16)))
      | (wtr, o) => (wtr, o)
    else if l ≤ 4294967295 then
      match writeByte wtr 0xc6 with
      | (wtr, .nil) => wtr.Write (reverseByte (leBytes 4 (l % 2 ^ 32)))
      | (wtr, o) => (wtr, o)
    else
      (wtr, .panicked "Binary larger than 4 gigs!")
  match hdr with
  | (wtr, .nil) => wtr.Write b
  | (wtr, o) => (wtr, o)

/-- Source `EncodeFloat64`; `f` is the IEEE-754 bit pattern of the value. -/
def EncodeFloat64 (wtr : Writer) (f : Nat) : Writer × Outcome :=
  match writeByte wtr 0xca with
  | (wtr, .nil) =>
    match wtr.Write (reverseByte (leBytes 8 f)) with
    | (wtr, .nil) => (wtr, .nil)
    | (wtr, o) => (wtr, o)
  | (wtr, o) => (wtr, o)

/-- Source `EncodeFloat32`; `f` is the IEEE-754 bit pattern of the value. -/
def EncodeFloat32 (wtr : Writer) (f : Nat) : Writer × Outcome :=
  match writeByte wtr 0xca with
  | (wtr, .nil) =>
    match wtr.Write (reverseByte (leBytes 4 f)) with
    | (wtr, .nil) => (wtr, .nil)
    | (wtr, o) => (wtr, o)
  | (wtr, o) => (wtr, o)

/-- Source `EncodeNil`. -/
def EncodeNil (wtr : Writer) : Writer × Outcome := writeByte wtr 0xc0

/-! ## Struct tags -/

/-- Function `strings.Split(t, ",")` on bytes: never returns an empty list. -/
def splitComma : List Nat → List (List Nat)
  | [] => [[]]
  | c :: cs =>
    if c = 0x2c then [] :: splitComma cs
    else
      match splitComma cs with
      | [] => [[c]]
      | h :: t => (c :: h) :: t

/-- UTF-8 encodings of the runes for which `unicode.IsSpace` holds. -/
def spaceRunes : List (List Nat) :=
  [[0x09], [0x0a], [0x0b], [0x0c], [0x0d], [0x20], [0xc2, 0x85], [0xc2, 0xa0],
   [0xe1, 0x9a, 0x80], [0xe2, 0x80, 0x80], [0xe2, 0x80, 0x81], [0xe2, 0x80, 0x82],
   [0xe2, 0x80, 0x83], [0xe2, 0x80, 0x84], [0xe2, 0x80, 0x85], [0xe2, 0x80, 0x86],
   [0xe2, 0x80, 0x87], [0xe2, 0x80, 0x88], [0xe2, 0x80, 0x89], [0xe2, 0x80, 0x8a],
   [0xe2, 0x80, 0xa8], [0xe2, 0x80, 0xa9], [0xe2, 0x80, 0xaf], [0xe2, 0x81, 0x9f],
   [0xe3, 0x80, 0x80]]

/-- Drop leading white-space runes; `fuel` bounds the number of runes dropped. -/
def trimLeftSpace : Nat → List Nat → List Nat
  | 0, s => s
  | fuel + 1, s =>
    match spaceRunes.find? (fun r => r.isPrefixOf s) with
    | some r => trimLeftSpace fuel (s.drop r.length)
    | none => s

/-- Drop trailing white-space runes; `fuel` bounds the number of runes dropped. -/
def trimRightSpace : Nat → List Nat → List Nat
  | 0, s => s
  | fuel + 1, s =>
    match spaceRunes.find? (fun r => r.isSuffixOf s) with
    | some r => trimRightSpace fuel (s.take (s.length - r.length))
    | none => s

/-- Function `strings.TrimSpace` on the bytes of a string. -/
def TrimSpace (s : List Nat) : List Nat :=
  let t := trimLeftSpace s.length s
  trimRightSpace t.length t

/-- Source `parseMsgPackTag`. -/
def parseMsgPackTag (t : List Nat) : List Nat × Bool :=
  let sp := splitComma t
  let fieldname := if sp.length ≥ 1 then TrimSpace (sp.getD 0 []) else []
  let omitempty := [0x6f, 0x6d, 0x69, 0x74, 0x65, 0x6d, 0x70, 0x74, 0x79]
  let omitted := if sp.length ≥ 2 ∧ TrimSpace (sp.getD 1 []) = omitempty then true else false
  (fieldname, omitted)

/-! ## Host values and the composite encoder -/

/-- One field of a struct value as `reflect` shows it: declared name, the result of
`Tag.Lookup("msgpack")`, whether the field is exported, and its value. -/
structure StructField (α : Type) where
  Name : List Nat
  Tag : Option (List Nat)
  exported : Bool
  val : α

/-- A Go value passed as `interface{}`: its dynamic type and its content. Strings and
byte slices are byte lists, floats are bit patterns, a map lists its pairs in the order
in which `MapKeys` yields the keys, `slice` is a slice or array that the type switch has
no case for (every one but `[]byte`, which is `bytes`), `other` stands for every type
`Encode` has no case for (channels, functions, complex numbers, named scalar types). -/
inductive GoValue
  | int64 (v : Int)
  | int32 (v : Int)
  | int16 (v : Int)
  | int8 (v : Int)
  | int (v : Int)
  | uint64 (v : Nat)
  | uint32 (v : Nat)
  | uint16 (v : Nat)
  | uint8 (v : Nat)
  | uint (v : Nat)
  | float64 (f : Nat)
  | float32 (f : Nat)
  | bool (b : Bool)
  | string (s : List Nat)
  | bytes (b : List Nat)
  | nil
  | slice (elems : List GoValue)
  | map (pairs : List (GoValue × GoValue))
  | struct (fields : List (StructField GoValue))
  | ptr (elem : Option GoValue)
  | other (typeName : String)

/-- Size in bytes of Go's `int` and `uint` (`reflect.TypeOf(v).Size()`): a 64-bit
platform, as the expected bytes of `TestInt` and `TestUint` assume. -/
def wordSize : Int := 8

/-- The bit pattern `f` of a float with `expBits` exponent bits and `manBits` fraction
bits is a NaN: exponent all ones, fraction not zero. -/
def isNaN (expBits manBits f : Nat) : Bool :=
  (f / 2 ^ manBits) % 2 ^ expBits == 2 ^ expBits - 1 && f % 2 ^ manBits != 0

mutual
/-- Go's `k == k` for a value used as a map key: false exactly when a NaN is compared,
directly or as an element of an array or a field of a struct; a pointer is compared by
address. `MapIndex(k)` finds the entry of a key `k` that `MapKeys` yielded if and only if
`k == k`. A key of a type that `Encode` has no case for is taken as equal to itself: the
loop panics on such a key either way. -/
def GoValue.selfEqual : GoValue → Bool
  | .float64 f => !isNaN 11 52 f
  | .float32 f => !isNaN 8 23 f
  | .slice elems => GoValue.selfEqualAll elems
  | .struct fields => GoValue.selfEqualFields fields
  | _ => true
/-- Every element of an array is equal to itself. -/
def GoValue.selfEqualAll : List GoValue → Bool
  | [] => true
  | e :: rest => GoValue.selfEqual e && GoValue.selfEqualAll rest
/-- Every field of a struct is equal to itself. -/
def GoValue.selfEqualFields : List (StructField GoValue) → Bool
  | [] => true
  | ⟨_, _, _, val⟩ :: rest => GoValue.selfEqual val && GoValue.selfEqualFields rest
end

/-- The header part of source `encodeArray`, for a sequence of `l` elements. -/
def encodeArrayHeader (wtr : Writer) (l : Nat) : Writer × Outcome :=
  if l ≤ 15 then
    writeByte wtr ((0x90 ||| l) % 256)
  else if l ≤ 65535 then
    match writeByte wtr 0xdc with
    | (wtr, .nil) => wtr.Write (reverseByte (leBytes 2 (l % 2 ^ 16)))
    | (wtr, o) => (wtr, o)
  else if l ≤ 4294967295 then
    match writeByte wtr 0xdd with
    | (wtr, .nil) => wtr.Write (reverseByte (leBytes 4 (l % 2 ^ 32)))
    | (wtr, o) => (wtr, o)
  else
    (wtr, .panicked "Array size larger than 4294967295!")

/-- Source `encodeMapHeader`. -/
def encodeMapHeader (wtr : Writer) (l : Nat) : Writer × Outcome :=
  if l ≤ 15 then
    writeByte wtr ((0x80 ||| l) % 256)
  else if l ≤ 65535 then
    match writeByte wtr 0xde with
    | (wtr, .nil) => wtr.Write (reverseByte (leBytes 2 (l % 2 ^ 16)))
    | (wtr, o) => (wtr, o)
  else if l ≤ 4294967295 then
    match writeByte wtr 0xdf with
    | (wtr, .nil) => wtr.Write (reverseByte (leBytes 4 (l % 2 ^ 32)))
    | (wtr, o) => (wtr, o)
  else
    (wtr, .panicked "Array size larger than 4294967295!")

mutual
/-- Source `Encoder.Encode`: the type switch, then the dispatch on `reflect` kinds. The
bodies of `encodeArray`, `encodeMap` and `encodeStruct` are the header followed by the
loops below. -/
def Encoder.Encode : GoValue → Writer → Writer × Outcome
  | .int64 val, wtr => EncodeInt wtr val 64
  | .int32 val, wtr => EncodeInt wtr val 32
  | .int16 val, wtr => EncodeInt wtr val 16
  | .int8 val, wtr => EncodeInt wtr val 8
  | .int val, wtr => EncodeInt wtr val (wordSize * 8)
  | .uint64 val, wtr => EncodeUint wtr val 64
  | .uint32 val, wtr => EncodeUint wtr val 32
  | .uint16 val, wtr => EncodeUint wtr val 16
  | .uint8 val, wtr => EncodeUint wtr val 8
  | .uint val, wtr => EncodeUint wtr val (wordSize * 8)
  | .float64 val, wtr => EncodeFloat64 wtr val
  | .float32 val, wtr => EncodeFloat32 wtr val
  | .bool val, wtr => EncodeBool wtr val
  | .string val, wtr => EncodeString wtr val
  | .bytes val, wtr => EncodeBin wtr val
  | .nil, wtr => EncodeNil wtr
  | .slice elems, wtr =>
    match encodeArrayHeader wtr elems.length with
    | (wtr, .nil) => Encoder.encodeArrayLoop elems wtr
    | (wtr, o) => (wtr, o)
  | .map pairs, wtr =>
    match encodeMapHeader wtr pairs.length with
    | (wtr, .nil) => Encoder.encodeMapLoop pairs wtr
    | (wtr, o) => (wtr, o)
  | .struct fields, wtr =>
    match encodeMapHeader wtr fields.length with
    | (wtr, .nil) => Encoder.encodeStructLoop fields wtr
    | (wtr, o) => (wtr, o)
  | .ptr none, wtr => EncodeNil wtr
  | .ptr (some v), wtr => Encoder.Encode v wtr
  | .other typeName, wtr => (wtr, .panicked ("Unhandled type " ++ typeName))
/-- The element loop of source `encodeArray`. -/
def Encoder.encodeArrayLoop : List GoValue → Writer → Writer × Outcome
  | [], wtr => (wtr, .nil)
  | ed :: rest, wtr =>
    match Encoder.Encode ed wtr with
    | (wtr, .nil) => Encoder.encodeArrayLoop rest wtr
    | (wtr, o) => (wtr, o)
/-- The key loop of source `encodeMap`. The arguments of `encodeMapEntity` are computed
first: `val.MapIndex(keys[i])` is the zero `Value` when the key is not found, which
happens for a key that is not equal to itself, and `Interface()` on it panics. Then
`encodeMapEntity` encodes the key and the value. -/
def Encoder.encodeMapLoop : List (GoValue × GoValue) → Writer → Writer × Outcome
  | [], wtr => (wtr, .nil)
  | (key, val) :: rest, wtr =>
    if key.selfEqual = false then
      (wtr, .panicked "reflect: call of reflect.Value.Interface on zero Value")
    else
      match Encoder.Encode key wtr with
      | (wtr, .nil) =>
        match Encoder.Encode val wtr with
        | (wtr, .nil) => Encoder.encodeMapLoop rest wtr
        | (wtr, o) => (wtr, o)
      | (wtr, o) => (wtr, o)
/-- The field loop of source `encodeStruct`. A field whose tag asks for `omitempty` and
gives no name is skipped; `Interface()` on an unexported field panics. -/
def Encoder.encodeStructLoop : List (StructField GoValue) → Writer → Writer × Outcome
  | [], wtr => (wtr, .nil)
  | ⟨name, tag, exported, val⟩ :: rest, wtr =>
    let named : Option (Option (List Nat)) :=
      match tag with
      | some tval =>
        if (parseMsgPackTag tval).2 = true ∧ (parseMsgPackTag tval).1 = [] then none
        else if (parseMsgPackTag tval).1 ≠ [] then some (some (parseMsgPackTag tval).1)
        else some none
      | none => some none
    match named with
    | none => Encoder.encodeStructLoop rest wtr
    | some tname =>
      if exported = false then
        (wtr, .panicked "reflect.Value.Interface: cannot return value obtained from unexported field or method")
      else
        match EncodeString wtr (tname.getD name) with
        | (wtr, .nil) =>
          match Encoder.Encode val wtr with
          | (wtr, .nil) => Encoder.encodeStructLoop rest wtr
          | (wtr, o) => (wtr, o)
        | (wtr, o) => (wtr, o)
end

/-- Source `Marshal`: encode into a fresh buffer; the bytes are returned only when the
encoder reports no error. -/
def Marshal (v : GoValue) : Option (List Nat) × Outcome :=
  match Encoder.Encode v [] with
  | (buf, .nil) => (some buf, .nil)
  | (_, o) => (none, o)

/-! ## Decoder (decoder.go) -/

/-- Source `type Token interface{}`: the dynamic types a token can have. -/
inductive Token
  | nil
  | uint64 (v : Nat)
  | uint32 (v : Nat)
  | uint16 (v : Nat)
  | uint8 (v : Nat)
  | uint (v : Nat)
  | int64 (v : Int)
  | int32 (v : Int)
  | int16 (v : Int)
  | int8 (v : Int)
  | int (v : Int)
  deriving DecidableEq, Repr

/-- Source `type Decoder struct`. -/
structure Decoder where
  rdr : Reader
  eof : Bool
  k : Kind
  deriving DecidableEq, Repr

/-- Source `NewDecoder`. -/
def NewDecoder (r : Reader) : Decoder := { rdr := r, eof := false, k := 0 }

/-- One payload case of source `Decoder.Token`: read `n` bytes, record the kind, and hand
the buffer to `mk` (which reverses and reinterprets it). -/
def Decoder.readPayload (d : Decoder) (rdr : Reader) (n : Nat) (kind : Kind)
    (mk : List Nat → Msgpack.Token) : Decoder × Msgpack.Token × Outcome :=
  match rdr.Read n with
  | (rdr, buf, .nil) => ({ d with rdr := rdr, k := kind }, mk buf, .nil)
  | (rdr, _, o) => ({ d with rdr := rdr }, .nil, o)

/-- Source `Decoder.Token`. -/
def Decoder.Token (d : Decoder) : Decoder × Msgpack.Token × Outcome :=
  match readByte d.rdr with
  | (rdr, cbyte, .nil) =>
    if cbyte = Uint64 then
      d.readPayload rdr 8 Uint64 (fun buf => .uint64 (ofLE (reverseByte buf)))
    else if cbyte = Uint32 then
      d.readPayload rdr 4 Uint32 (fun buf => .uint32 (ofLE (reverseByte buf)))
    else if cbyte = Uint16 then
      d.readPayload rdr 2 Uint16 (fun buf => .uint16 (ofLE (reverseByte buf)))
    else if cbyte = Uint8 then
      d.readPayload rdr 1 Uint8 (fun buf => .uint8 (ofLE (reverseByte buf)))
    else if cbyte = Int64 then
      d.readPayload rdr 8 Int64 (fun buf => .int64 (toSigned 64 (ofLE (reverseByte buf))))
    else if cbyte = Int32 then
      d.readPayload rdr 4 Int32 (fun buf => .int32 (toSigned 32 (ofLE (reverseByte buf))))
    else if cbyte = Int16 then
      d.readPayload rdr 2 Int16 (fun buf => .int16 (toSigned 16 (ofLE (reverseByte buf))))
    else if cbyte = Int8 then
      d.readPayload rdr 1 Int8 (fun buf => .int8 (toSigned 8 (ofLE buf)))
    else if cbyte &&& 0x80 = FixUint then
      ({ d with rdr := rdr, k := FixUint }, .uint8 cbyte, .nil)
    else if cbyte &&& FixInt = FixInt then
      let ret := cbyte &&& (FixInt ^^^ 0xFF)
      let ret := ((ret ^^^ 0xff) + 1) % 256
      ({ d with rdr := rdr, k := FixInt }, .int8 (int8 ret), .nil)
    else
      ({ d with rdr := rdr }, .nil, .nil)
  | (rdr, _, o) => ({ d with rdr := rdr }, .nil, o)

/-- The destination of a decode as `reflect.Value` shows it: a pointer, a signed or
unsigned integer variable of the given width, or a variable of another kind. -/
inductive RValue
  | ptr (elem : RValue)
  | int (bits : Nat) (v : Int)
  | uint (bits : Nat) (v : Nat)
  | bool (b : Bool)
  | string (s : List Nat)
  | bytes (b : List Nat)
  deriving DecidableEq, Repr

/-- Method `reflect.Value.SetInt`: panics unless the value is assignable and of a signed
integer kind; stores `x` converted to the width of the variable. The text carried by
the panic is schematic: where it says `non-int`, reflect names the kind of the
destination. -/
def RValue.SetInt (rv : RValue) (assignable : Bool) (x : Int) : RValue × Outcome :=
  if assignable = false then
    (rv, .panicked "reflect: reflect.Value.SetInt using unaddressable value")
  else
    match rv with
    | .int bits _ => (.int bits (toSigned bits x), .nil)
    | _ => (rv, .panicked "reflect: call of reflect.Value.SetInt on non-int Value")

/-- Method `reflect.Value.SetUint`: panics unless the value is assignable and of an
unsigned integer kind; stores `x` converted to the width of the variable. The text
carried by the panic is schematic: where it says `non-uint`, reflect names the kind of the
destination (`int` for an `int` variable). -/
def RValue.SetUint (rv : RValue) (assignable : Bool) (x : Nat) : RValue × Outcome :=
  if assignable = false then
    (rv, .panicked "reflect: reflect.Value.SetUint using unaddressable value")
  else
    match rv with
    | .uint bits _ => (.uint bits (toUnsigned bits x), .nil)
    | _ => (rv, .panicked "reflect: call of reflect.Value.SetUint on non-uint Value")

/-- The type switch of source `Decoder.decode` on the token just read. -/
def Decoder.store (d : Decoder) (rv : RValue) (assignable : Bool) (tok : Msgpack.Token) :
    Decoder × RValue × Outcome :=
  match tok with
  | .int64 v => (d, rv.SetInt assignable v)
  | .int32 v => (d, rv.SetInt assignable v)
  | .int16 v => (d, rv.SetInt assignable v)
  | .int8 v => (d, rv.SetInt assignable v)
  | .int v => (d, rv.SetInt assignable v)
  | .uint64 v => (d, rv.SetUint assignable v)
  | .uint32 v => ({ d with k := Uint32 }, rv.SetUint assignable v)
  | .uint16 v => (d, rv.SetUint assignable v)
  | .uint8 v => (d, rv.SetUint assignable v)
  | .uint v => (d, rv.SetUint assignable v)
  | .nil => (d, rv, .nil)

/-- Source `Decoder.decode`: a pointer is dereferenced (its element is assignable),
anything else receives the next token. -/
def Decoder.decode (d : Decoder) (rv : RValue) (assignable : Bool) :
    Decoder × RValue × Outcome :=
  match rv with
  | .ptr elem =>
    match d.decode elem true with
    | (d, elem, o) => (d, .ptr elem, o)
  | .int bits v =>
    match d.Token with
    | (d, tok, .nil) => d.store (.int bits v) assignable tok
    | (d, _, o) => (d, .int bits v, o)
  | .uint bits v =>
    match d.Token with
    | (d, tok, .nil) => d.store (.uint bits v) assignable tok
    | (d, _, o) => (d, .uint bits v, o)
  | .bool b =>
    match d.Token with
    | (d, tok, .nil) => d.store (.bool b) assignable tok
    | (d, _, o) => (d, .bool b, o)
  | .string s =>
    match d.Token with
    | (d, tok, .nil) => d.store (.string s) assignable tok
    | (d, _, o) => (d, .string s, o)
  | .bytes b =>
    match d.Token with
    | (d, tok, .nil) => d.store (.bytes b) assignable tok
    | (d, _, o) => (d, .bytes b, o)

/-- Source `Decoder.Decode`: `reflect.ValueOf(v)` is not assignable itself. -/
def Decoder.Decode (d : Decoder) (v : RValue) : Decoder × RValue × Outcome :=
  d.decode v false

/-- Source `Decoder.Kind`. -/
def Decoder.Kind (d : Decoder) : Kind := d.k

/-- Source `Unmarshal`: the destination after the call, and the error or panic. -/
def Unmarshal (d : List Nat) (v : RValue) : RValue × Outcome :=
  match (NewDecoder d).Decode v with
  | (_, v, o) => (v, o)

/-! ## The wire format as the specification words it -/

/-- Specification: the string header of the smallest tier that fits the length `l`. -/
def strHeader (l : Nat) : List Nat :=
  if l ≤ 31 then [0xa0 ||| l]
  else if l ≤ 255 then [0xd9, l]
  else if l ≤ 65535 then 0xda :: bigEndian 2 l
  else 0xdb :: bigEndian 4 l

/-- Specification: the blob header of the smallest tier that fits the length `l`; there
is no embedded-length tier. -/
def binHeader (l : Nat) : List Nat :=
  if l ≤ 255 then [0xc4, l]
  else if l ≤ 65535 then 0xc5 :: bigEndian 2 l
  else 0xc6 :: bigEndian 4 l

/-- Specification: the array header for `n` elements. -/
def arrayHeader (n : Nat) : List Nat :=
  if n ≤ 15 then [0x90 ||| n]
  else if n ≤ 65535 then 0xdc :: bigEndian 2 n
  else 0xdd :: bigEndian 4 n

/-- Specification: the map header for `n` pairs. -/
def mapHeader (n : Nat) : List Nat :=
  if n ≤ 15 then [0x80 ||| n]
  else if n ≤ 65535 then 0xde :: bigEndian 2 n
  else 0xdf :: bigEndian 4 n

/-- The encoding of a value: the bytes `Encode` appends to a buffer for it. -/
def encoding (v : GoValue) : List Nat := (Encoder.Encode v []).1

/-- A value is encodable when `Encode` returns no error for it and does not panic. -/
abbrev encodable (v : GoValue) : Prop := (Encoder.Encode v []).2 = Outcome.nil

/-- Specification: the control bytes that the wire-format table assigns to no kind (the
reserved byte `0xc1` and the extension bytes, which are out of scope). -/
def reservedByte (c : Nat) : Prop :=
  c = 0xc1 ∨ c = 0xc7 ∨ c = 0xc8 ∨ c = 0xc9 ∨ (0xd4 ≤ c ∧ c ≤ 0xd8)

instance (c : Nat) : Decidable (reservedByte c) := by
  unfold reservedByte; infer_instance

/-- The bytes of an ASCII string literal. -/
def ascii (s : String) : List Nat := s.data.map Char.toNat

/-- A value reached through `n` levels of non-nil pointers. -/
def pointerTo : Nat → GoValue → GoValue
  | 0, v => v
  | n + 1, v => .ptr (some (pointerTo n v))

/-- The Go value of unsigned type of width `w` (8, 16, 32, otherwise 64 bits) holding `n`. -/
def uintOf (x : Nat × Nat) : GoValue :=
  if x.1 = 8 then .uint8 x.2
  else if x.1 = 16 then .uint16 x.2
  else if x.1 = 32 then .uint32 x.2
  else .uint64 x.2

/-- Specification: the token expected for the value `n` encoded from a type of width `w`:
its numeric value is `n`, and above 127 it has the width `w`. -/
def uintToken (x : Nat × Nat) : Token :=
  if x.2 ≤ 127 then .uint8 x.2
  else if x.1 = 8 then .uint8 x.2
  else if x.1 = 16 then .uint16 x.2
  else if x.1 = 32 then .uint32 x.2
  else .uint64 x.2

/-- Specification: the kind expected for the value `n` encoded from a type of width `w`. -/
def uintKind (x : Nat × Nat) : Kind :=
  if x.2 ≤ 127 then FixUint
  else if x.1 = 8 then Uint8
  else if x.1 = 16 then Uint16
  else if x.1 = 32 then Uint32
  else Uint64

/-- The calls of `encodeDebug` in the tests: `Encode` each value, in order, into the same
buffer. -/
def encodeEach (vs : List GoValue) (wtr : Writer) : Writer :=
  vs.foldl (fun w v => (Encoder.Encode v w).1) wtr

/-- The calls of `decodeDebug` in the tests: `n` calls of `Decoder.Token`, one after the
other. For each call the list has the token, what `Decoder.Kind()` reports after it, the
bytes left unread, and the error; the first component is the decoder after the last
call. -/
def Decoder.Tokens :
    Nat → Decoder → Decoder × List (Msgpack.Token × Msgpack.Kind × List Nat × Outcome)
  | 0, d => (d, [])
  | n + 1, d =>
    match d.Token with
    | (d1, tok, o) =>
      match Decoder.Tokens n d1 with
      | (d2, rest) => (d2, (tok, d1.Kind, d1.rdr, o) :: rest)

/-- Specification: what the calls of `Decoder.Token` are expected to return for the
values `xs` encoded in order: each call leaves unread exactly the bytes written for the
values after it. -/
def expectedTokens : List (Nat × Nat) → List (Token × Kind × List Nat × Outcome)
  | [] => []
  | x :: xs =>
    (uintToken x, uintKind x, encodeEach (xs.map uintOf) [], Outcome.nil) :: expectedTokens xs

/-- Specification: the string starts with a white-space rune. -/
def hasLeadingSpace (s : List Nat) : Bool := spaceRunes.any (fun r => r.isPrefixOf s)

/-- Specification: the string ends with a white-space rune. -/
def hasTrailingSpace (s : List Nat) : Bool := spaceRunes.any (fun r => r.isSuffixOf s)

theorem swapAt_length (n : Nat) (c : List Nat) (i : Nat) : (swapAt n c i).length = c.length := by
  simp [swapAt]

theorem swapLoop_length (b : List Nat) (m : Nat) :
    ((List.range m).foldl (swapAt b.length) b).length = b.length := by
  induction m with
  | zero => simp
  | succ m ihm => rw [List.range_succ, List.foldl_append]; simp [swapAt_length, ihm]

/-- The swap loop of `reverseByte`, stopped after `k` rounds, has reversed the outer `k`
positions on both ends and left the middle alone. -/
theorem reverseByte_loop (b : List Nat) (k : Nat) (hk : k ≤ b.length / 2) (j : Nat) :
    ((List.range k).foldl (swapAt b.length) b)[j]? =
    if j < k ∨ b.length - k ≤ j then (if j < b.length then b[b.length - 1 - j]? else none)
    else b[j]? := by
  induction k generalizing j with
  | zero =>
    simp only [List.range_zero, List.foldl_nil, Nat.not_lt_zero, false_or, Nat.sub_zero]
    split
    · rename_i h
      rw [if_neg (by omega)]
      exact List.getElem?_eq_none h
    · rfl
  | succ k ih =>
    have hlen := swapLoop_length b k
    have ih1 := ih (by omega) k
    have ih2 := ih (by omega) (b.length - k - 1)
    have ihj := ih (by omega) j
    rw [if_neg (by omega)] at ih1
    rw [if_neg (by omega)] at ih2
    rw [List.range_succ, List.foldl_append]
    simp only [List.foldl_cons, List.foldl_nil]
    generalize (List.range k).foldl (swapAt b.length) b = c at hlen ih1 ih2 ihj
    unfold swapAt
    simp only [List.getElem?_set, List.length_set, hlen, List.getD_eq_getElem?_getD]
    rw [ih1, ih2, ihj]
    have hk1 : k < b.length := by omega
    have hk2 : b.length - k - 1 < b.length := by omega
    by_cases h1 : b.length - k - 1 = j
    · subst h1
      rw [if_pos rfl, if_pos hk2, if_pos (by omega), if_pos hk2]
      have : b.length - 1 - (b.length - k - 1) = k := by omega
      rw [this, List.getElem?_eq_getElem hk1]
      rfl
    · rw [if_neg h1]
      by_cases h2 : k = j
      · subst h2
        rw [if_pos rfl, if_pos hk1, if_pos (by omega), if_pos hk1]
        have : b.length - 1 - k = b.length - k - 1 := by omega
        rw [this, List.getElem?_eq_getElem hk2]
        rfl
      · rw [if_neg h2]
        by_cases h3 : j < k ∨ b.length - k ≤ j
        · have h4 : j < k + 1 ∨ b.length - (k + 1) ≤ j := by omega
          rw [if_pos h3, if_pos h4]
        · have h4 : ¬ (j < k + 1 ∨ b.length - (k + 1) ≤ j) := by omega
          rw [if_neg h3, if_neg h4]

/-- Source `reverseByte` reverses its argument. -/
theorem reverseByte_eq_reverse (b : List Nat) : reverseByte b = b.reverse := by
  apply List.ext_getElem?
  intro j
  unfold reverseByte
  simp only []
  rw [reverseByte_loop b (b.length / 2) (le_refl _) j]
  by_cases hj : j < b.length
  · rw [List.getElem?_reverse hj]
    by_cases h : j < b.length / 2 ∨ b.length - b.length / 2 ≤ j
    · rw [if_pos h, if_pos hj]
    · rw [if_neg h]
      have : b.length - 1 - j = j := by omega
      rw [this]
  · have h1 : b.reverse[j]? = none := List.getElem?_eq_none (by simp; omega)
    rw [h1]
    by_cases h : j < b.length / 2 ∨ b.length - b.length / 2 ≤ j
    · rw [if_pos h, if_neg hj]
    · rw [if_neg h]
      exact List.getElem?_eq_none (by omega)

theorem reverseByte_nil : reverseByte [] = [] := rfl

theorem leBytes_length (n v : Nat) : (leBytes n v).length = n := by
  induction n generalizing v with
  | zero => rfl
  | succ n ih => simp [leBytes, ih]

theorem leBytes_take (m n v : Nat) (h : n ≤ m) : (leBytes m v).take n = leBytes n v := by
  induction n generalizing m v with
  | zero => simp [leBytes]
  | succ n ih =>
    obtain ⟨m, rfl⟩ : ∃ k, m = k + 1 := ⟨m - 1, by omega⟩
    simp [leBytes, ih m (v / 256) (by omega)]

theorem leBytes_eq_map (n v : Nat) :
    leBytes n v = (List.range n).map (fun i => v / 256 ^ i % 256) := by
  induction n generalizing v with
  | zero => rfl
  | succ n ih =>
    rw [leBytes, ih, List.range_succ_eq_map, List.map_cons, List.map_map]
    congr 1
    · simp
    · apply List.map_congr_left
      intro i _
      simp only [Function.comp, Nat.succ_eq_add_one]
      rw [Nat.div_div_eq_div_mul, pow_succ']

/-- Reversing the little-endian image of `v` gives its bytes most significant first. -/
theorem reverseByte_leBytes (n v : Nat) : reverseByte (leBytes n v) = bigEndian n v := by
  rw [reverseByte_eq_reverse, leBytes_eq_map, bigEndian]

/-- Reversing big-endian bytes gives the little-endian image back. -/
theorem reverseByte_bigEndian (n v : Nat) : reverseByte (bigEndian n v) = leBytes n v := by
  rw [reverseByte_eq_reverse, leBytes_eq_map, bigEndian, List.reverse_reverse]

theorem bigEndian_length (n v : Nat) : (bigEndian n v).length = n := by
  simp [bigEndian]

theorem ofLE_leBytes (n v : Nat) : ofLE (leBytes n v) = v % 256 ^ n := by
  induction n generalizing v with
  | zero => simp [leBytes, ofLE, Nat.mod_one]
  | succ n ih =>
    rw [leBytes, ofLE, ih, pow_succ', Nat.mod_mul]

theorem memBytes_take (n v : Nat) (h : n ≤ 8) : (memBytes v).take n = leBytes n v :=
  leBytes_take 8 n v h

theorem ofLE_reverse_bigEndian (n v : Nat) (h : v < 256 ^ n) :
    ofLE (bigEndian n v).reverse = v := by
  rw [bigEndian, List.reverse_reverse, ← leBytes_eq_map, ofLE_leBytes, Nat.mod_eq_of_lt h]

/-! ## Facts about the integer conversions -/

theorem toUnsigned_natCast (bits v : Nat) : toUnsigned bits (v : Int) = v % 2 ^ bits := by
  unfold toUnsigned
  have : ((v : Int) % 2 ^ bits) = ((v % 2 ^ bits : Nat) : Int) := by push_cast; rfl
  rw [this, Int.toNat_ofNat]

theorem toUnsigned_of_lt (bits v : Nat) (h : v < 2 ^ bits) : toUnsigned bits (v : Int) = v := by
  rw [toUnsigned_natCast, Nat.mod_eq_of_lt h]

theorem tdiv_widths : Int.tdiv 8 8 = 1 ∧ Int.tdiv 16 8 = 2 ∧ Int.tdiv 32 8 = 4 ∧
    Int.tdiv 64 8 = 8 := by decide

theorem uint64_natCast (v : Nat) (h : v < 2 ^ 64) : uint64 (v : Int) = v := by
  rw [uint64, toUnsigned_natCast, Nat.mod_eq_of_lt h]

theorem int8_small (v : Int) (h0 : 0 ≤ v) (h1 : v ≤ 127) : int8 v = v := by
  unfold int8 toSigned
  norm_num
  omega

theorem uint8_small (v : Nat) (h1 : v ≤ 127) : uint8 (v : Int) = v := by
  rw [uint8, toUnsigned_natCast]
  omega

/-! ## Integer envelopes -/

/-- Above 127 `EncodeUint` writes one control byte and the first `bsize/8` bytes of the
value, reversed; the control byte depends on `bsize` alone. -/
theorem EncodeUint_large (wtr : Writer) (v : Nat) (bsize : Int) (hv : 127 < v) :
    EncodeUint wtr v bsize =
      if Int.tdiv bsize 8 = 1 then (wtr ++ 0xcc :: bigEndian 1 v, .nil)
      else if Int.tdiv bsize 8 = 2 then (wtr ++ 0xcd :: bigEndian 2 v, .nil)
      else if Int.tdiv bsize 8 = 4 then (wtr ++ 0xce :: bigEndian 4 v, .nil)
      else if Int.tdiv bsize 8 = 8 then (wtr ++ 0xcf :: bigEndian 8 v, .nil)
      else (wtr ++ [0], .nil) := by
  have h : ¬ (v ≤ 0x7f ∧ v ≥ 0) := by omega
  unfold EncodeUint
  simp only [h, if_false]
  split_ifs <;>
    simp [writeByte, Writer.Write, Writer.WriteByte, memBytes_take, reverseByte_leBytes,
      reverseByte_nil]

/-- Above 127 `EncodeInt` writes one control byte and the first `bsize/8` bytes of the
value, reversed; the control byte depends on `bsize` alone. -/
theorem EncodeInt_large (wtr : Writer) (v : Nat) (bsize : Int) (hv : 127 < v)
    (h64 : v < 2 ^ 63) :
    EncodeInt wtr v bsize =
      if Int.tdiv bsize 8 = 1 then (wtr ++ 0xd0 :: bigEndian 1 v, .nil)
      else if Int.tdiv bsize 8 = 2 then (wtr ++ 0xd1 :: bigEndian 2 v, .nil)
      else if Int.tdiv bsize 8 = 4 then (wtr ++ 0xd2 :: bigEndian 4 v, .nil)
      else if Int.tdiv bsize 8 = 8 then (wtr ++ 0xd3 :: bigEndian 8 v, .nil)
      else (wtr ++ [0], .nil) := by
  have h : ¬ (((v : Int) ≤ 0x7f ∧ (v : Int) ≥ 0) ∨
      ((v : Int) < 0 ∧ int64 (Int.xor v 0xff + 1) < 0x1f)) := by omega
  have hu : uint64 (v : Int) = v := uint64_natCast v (by omega)
  unfold EncodeInt
  simp only [h, if_false, hu]
  split_ifs <;>
    simp [writeByte, Writer.Write, Writer.WriteByte, memBytes_take, reverseByte_leBytes,
      reverseByte_nil]

/-! ## Fixnums -/

/-- A value in `0..127` leaves `EncodeInt` as the single byte equal to the value. -/
theorem EncodeInt_fixpos (wtr : Writer) (v : Nat) (bsize : Int) (h : v ≤ 127) :
    EncodeInt wtr v bsize = (wtr ++ [v], .nil) := by
  interval_cases v <;> rfl

/-- A value in `0..127` leaves `EncodeUint` as the single byte equal to the value. -/
theorem EncodeUint_fixpos (wtr : Writer) (v : Nat) (bsize : Int) (h : v ≤ 127) :
    EncodeUint wtr v bsize = (wtr ++ [v], .nil) := by
  interval_cases v <;> rfl

/-- A value `-m` with `1 ≤ m ≤ 30` leaves `encodeFixNumInt` as the byte `0xE0 | m`. -/
theorem encodeFixNumInt_fixneg (wtr : Writer) (m : Nat) (h1 : 1 ≤ m) (h30 : m ≤ 30) :
    encodeFixNumInt wtr (-(m : Int)) = (wtr ++ [0xE0 ||| m], .nil) := by
  interval_cases m <;> rfl

/-- A value `-m` with `1 ≤ m ≤ 30` leaves `EncodeInt` as the byte `0xE0 | m`. -/
theorem EncodeInt_fixneg (wtr : Writer) (m : Nat) (bsize : Int) (h1 : 1 ≤ m) (h30 : m ≤ 30) :
    EncodeInt wtr (-(m : Int)) bsize = (wtr ++ [0xE0 ||| m], .nil) := by
  interval_cases m <;> rfl

/-! ## Tokens -/

/-- Reading exactly the `n > 0` bytes that are there fills the buffer with them. -/
theorem Read_exact (p rest : List Nat) (n : Nat) (hn : 0 < n) (hp : p.length = n) :
    Reader.Read (p ++ rest) n = (rest, p, .nil) := by
  cases p with
  | nil => simp at hp; omega
  | cons a p =>
    have h1 : List.drop n (a :: p ++ rest) = rest := List.drop_left' hp
    have h2 : List.take n (a :: p ++ rest) = a :: p := List.take_left' hp
    simp only [Reader.Read, List.cons_append] at *
    rw [h1, h2]
    simp [hp]

/-- A control byte below `0x80` is a positive fixnum token: the byte itself. -/
theorem Token_fixuint (b : Nat) (rest : List Nat) (eof : Bool) (k : Kind) (h : b ≤ 127) :
    Decoder.Token ⟨b :: rest, eof, k⟩ = (⟨rest, eof, FixUint⟩, .uint8 b, .nil) := by
  interval_cases b <;> rfl

/-- A control byte in `0xe0..0xff` is a negative fixnum token: minus its low five bits. -/
theorem Token_fixint (b : Nat) (rest : List Nat) (eof : Bool) (k : Kind)
    (h1 : 0xe0 ≤ b) (h2 : b ≤ 0xff) :
    Decoder.Token ⟨b :: rest, eof, k⟩ =
      (⟨rest, eof, FixInt⟩, .int8 (-((b &&& 0x1f : Nat) : Int)), .nil) := by
  interval_cases b <;> rfl

/-- A control byte `0xcc..0xcf` followed by its full payload is an unsigned token of that
width holding the payload read as a big-endian number. -/
theorem Token_uint (p rest : List Nat) (eof : Bool) (k : Kind) :
    (p.length = 1 → Decoder.Token ⟨0xcc :: (p ++ rest), eof, k⟩ =
      (⟨rest, eof, Uint8⟩, .uint8 (ofLE (reverseByte p)), .nil)) ∧
    (p.length = 2 → Decoder.Token ⟨0xcd :: (p ++ rest), eof, k⟩ =
      (⟨rest, eof, Uint16⟩, .uint16 (ofLE (reverseByte p)), .nil)) ∧
    (p.length = 4 → Decoder.Token ⟨0xce :: (p ++ rest), eof, k⟩ =
      (⟨rest, eof, Uint32⟩, .uint32 (ofLE (reverseByte p)), .nil)) ∧
    (p.length = 8 → Decoder.Token ⟨0xcf :: (p ++ rest), eof, k⟩ =
      (⟨rest, eof, Uint64⟩, .uint64 (ofLE (reverseByte p)), .nil)) := by
  refine ⟨?_, ?_, ?_, ?_⟩ <;> intro hp <;>
    simp [Decoder.Token, readByte, Reader.ReadByte, Decoder.readPayload,
      Read_exact p rest _ (by omega) hp, Uint8, Uint16, Uint32, Uint64, Int8, Int16, Int32,
      Int64]

/-! ## Round trip of unsigned integers -/

/-- Decoding a positive fixnum byte into an unsigned variable stores the byte. -/
theorem Unmarshal_fixuint (n bits d0 : Nat) (h : n ≤ 127) (hb : 7 ≤ bits) :
    Unmarshal [n] (.ptr (.uint bits d0)) = (.ptr (.uint bits n), .nil) := by
  have hlt : n < 2 ^ bits :=
    lt_of_lt_of_le (by omega : n < 2 ^ 7) (Nat.pow_le_pow_right (by decide) hb)
  simp [Unmarshal, Decoder.Decode, Decoder.decode, NewDecoder, Token_fixuint n [] false 0 h,
    Decoder.store, RValue.SetUint, toUnsigned_natCast, Nat.mod_eq_of_lt hlt]

/-- Decoding an unsigned envelope into an unsigned variable of the same width stores the
value. -/
theorem Unmarshal_uint_envelope (n d0 : Nat) :
    (n < 2 ^ 8 → Unmarshal (0xcc :: bigEndian 1 n) (.ptr (.uint 8 d0))
      = (.ptr (.uint 8 n), .nil)) ∧
    (n < 2 ^ 16 → Unmarshal (0xcd :: bigEndian 2 n) (.ptr (.uint 16 d0))
      = (.ptr (.uint 16 n), .nil)) ∧
    (n < 2 ^ 32 → Unmarshal (0xce :: bigEndian 4 n) (.ptr (.uint 32 d0))
      = (.ptr (.uint 32 n), .nil)) ∧
    (n < 2 ^ 64 → Unmarshal (0xcf :: bigEndian 8 n) (.ptr (.uint 64 d0))
      = (.ptr (.uint 64 n), .nil)) := by
  have t1 := (Token_uint (bigEndian 1 n) [] false 0).1 (bigEndian_length 1 n)
  have t2 := (Token_uint (bigEndian 2 n) [] false 0).2.1 (bigEndian_length 2 n)
  have t4 := (Token_uint (bigEndian 4 n) [] false 0).2.2.1 (bigEndian_length 4 n)
  have t8 := (Token_uint (bigEndian 8 n) [] false 0).2.2.2 (bigEndian_length 8 n)
  rw [List.append_nil] at t1 t2 t4 t8
  refine ⟨?_, ?_, ?_, ?_⟩ <;> intro hn
  · have hm : n % 256 = n := Nat.mod_eq_of_lt (by simpa using hn)
    simp [Unmarshal, Decoder.Decode, Decoder.decode, NewDecoder, t1, Decoder.store,
      RValue.SetUint, reverseByte_bigEndian, ofLE_leBytes, hm, toUnsigned_of_lt _ _ hn]
  · have hm : n % 65536 = n := Nat.mod_eq_of_lt (by simpa using hn)
    simp [Unmarshal, Decoder.Decode, Decoder.decode, NewDecoder, t2, Decoder.store,
      RValue.SetUint, reverseByte_bigEndian, ofLE_leBytes, hm, toUnsigned_of_lt _ _ hn]
  · have hm : n % 4294967296 = n := Nat.mod_eq_of_lt (by simpa using hn)
    simp [Unmarshal, Decoder.Decode, Decoder.decode, NewDecoder, t4, Decoder.store,
      RValue.SetUint, reverseByte_bigEndian, ofLE_leBytes, hm, toUnsigned_of_lt _ _ hn]
  · have hm : n % 18446744073709551616 = n := Nat.mod_eq_of_lt (by simpa using hn)
    simp [Unmarshal, Decoder.Decode, Decoder.decode, NewDecoder, t8, Decoder.store,
      RValue.SetUint, reverseByte_bigEndian, ofLE_leBytes, hm, toUnsigned_of_lt _ _ hn]

/-- What `Marshal` returns for an unsigned integer of each Go type. -/
theorem Marshal_uint (n : Nat) :
    Marshal (.uint8 n) = (if n ≤ 127 then (some [n], .nil)
      else (some (0xcc :: bigEndian 1 n), .nil)) ∧
    Marshal (.uint16 n) = (if n ≤ 127 then (some [n], .nil)
      else (some (0xcd :: bigEndian 2 n), .nil)) ∧
    Marshal (.uint32 n) = (if n ≤ 127 then (some [n], .nil)
      else (some (0xce :: bigEndian 4 n), .nil)) ∧
    Marshal (.uint64 n) = (if n ≤ 127 then (some [n], .nil)
      else (some (0xcf :: bigEndian 8 n), .nil)) ∧
    Marshal (.uint n) = (if n ≤ 127 then (some [n], .nil)
      else (some (0xcf :: bigEndian 8 n), .nil)) := by
  by_cases h : n ≤ 127
  · simp [Marshal, Encoder.Encode, EncodeUint_fixpos _ _ _ h, h]
  · have h2 : 127 < n := by omega
    simp [Marshal, Encoder.Encode, EncodeUint_large _ _ _ h2, h, wordSize, tdiv_widths]

/-! ## Control bytes the decoder has no case for -/

/-- A control byte in `0x80..0xdf` outside the two integer families `0xcc..0xd3` matches no
case of `Decoder.Token`: the call consumes the byte and returns the nil token with no
error, leaving the recorded kind as it was. -/
theorem Token_unhandled (c : Nat) (rest : List Nat) (eof : Bool) (k : Kind)
    (h1 : 0x80 ≤ c) (h2 : c ≤ 0xdf) (h3 : c < 0xcc ∨ 0xd3 < c) :
    Decoder.Token ⟨c :: rest, eof, k⟩ = (⟨rest, eof, k⟩, .nil, .nil) := by
  interval_cases c <;> first | rfl | omega

/-- Whatever the destination, a stream starting with such a control byte is decoded
without error and without touching the destination. -/
theorem Unmarshal_unhandled (c : Nat) (rest : List Nat) (d : RValue)
    (hd : ∀ e, d ≠ .ptr e)
    (h1 : 0x80 ≤ c) (h2 : c ≤ 0xdf) (h3 : c < 0xcc ∨ 0xd3 < c) :
    Unmarshal (c :: rest) (.ptr d) = (.ptr d, .nil) := by
  have ht := Token_unhandled c rest false 0 h1 h2 h3
  cases d with
  | ptr e => exact absurd rfl (hd e)
  | int bits v => simp [Unmarshal, Decoder.Decode, Decoder.decode, NewDecoder, ht, Decoder.store]
  | uint bits v => simp [Unmarshal, Decoder.Decode, Decoder.decode, NewDecoder, ht, Decoder.store]
  | bool b => simp [Unmarshal, Decoder.Decode, Decoder.decode, NewDecoder, ht, Decoder.store]
  | string s => simp [Unmarshal, Decoder.Decode, Decoder.decode, NewDecoder, ht, Decoder.store]
  | bytes b => simp [Unmarshal, Decoder.Decode, Decoder.decode, NewDecoder, ht, Decoder.store]

theorem fixstr_control (l : Nat) (h : l ≤ 31) :
    0xa0 ≤ (0xa0 ||| l) % 256 ∧ (0xa0 ||| l) % 256 ≤ 0xbf := by
  interval_cases l <;> decide

/-- The first byte `EncodeString` writes into an empty buffer is a string control byte. -/
theorem EncodeString_head (s : List Nat) (h : s.length ≤ 4294967295) :
    ∃ c tl, EncodeString [] s = (c :: tl, .nil) ∧
      ((0xa0 ≤ c ∧ c ≤ 0xbf) ∨ c = 0xd9 ∨ c = 0xda ∨ c = 0xdb) := by
  unfold EncodeString
  simp only [writeByte, Writer.WriteByte, Writer.Write, WriteString, List.nil_append]
  split_ifs with h1 h2 h3
  · exact ⟨_, _, rfl, Or.inl (fixstr_control _ h1)⟩
  · exact ⟨0xd9, _, rfl, by decide⟩
  · exact ⟨0xda, _, rfl, by decide⟩
  · exact ⟨0xdb, _, rfl, by decide⟩

/-- The first byte `EncodeBin` writes into an empty buffer is a bin control byte. -/
theorem EncodeBin_head (b : List Nat) (h : b.length ≤ 4294967295) :
    ∃ c tl, EncodeBin [] b = (c :: tl, .nil) ∧ (c = 0xc4 ∨ c = 0xc5 ∨ c = 0xc6) := by
  unfold EncodeBin
  simp only [writeByte, Writer.WriteByte, Writer.Write, List.nil_append]
  split_ifs with h1 h2
  · exact ⟨0xc4, _, rfl, by decide⟩
  · exact ⟨0xc5, _, rfl, by decide⟩
  · exact ⟨0xc6, _, rfl, by decide⟩

/-! ## Headers -/

theorem fix_control (c l : Nat) (h : l ≤ 31) (hc : c = 0xa0 ∨ c = 0x90 ∨ c = 0x80) :
    (c ||| l) % 256 = c ||| l := by
  rcases hc with rfl | rfl | rfl <;> interval_cases l <;> rfl

theorem bigEndian_mod (n l : Nat) : bigEndian n (l % 2 ^ (8 * n)) = bigEndian n l := by
  have h : (2 : Nat) ^ (8 * n) = 256 ^ n := by rw [pow_mul]; norm_num
  unfold bigEndian
  congr 1
  apply List.map_congr_left
  intro i hi
  have hi2 : i < n := List.mem_range.mp hi
  obtain ⟨k, rfl⟩ : ∃ k, n = i + k + 1 := ⟨n - i - 1, by omega⟩
  rw [h, show (256 : Nat) ^ (i + k + 1) = 256 ^ i * (256 * 256 ^ k) by rw [pow_succ, pow_add]; ring,
    Nat.mod_mul_right_div_self, Nat.mod_mul_right_mod]

/-- A 16-bit length is written as its two bytes, most significant first. -/
theorem reverseByte_len16 (l : Nat) : reverseByte (leBytes 2 (l % 2 ^ 16)) = bigEndian 2 l := by
  rw [reverseByte_leBytes]; exact bigEndian_mod 2 l

/-- A 32-bit length is written as its four bytes, most significant first. -/
theorem reverseByte_len32 (l : Nat) : reverseByte (leBytes 4 (l % 2 ^ 32)) = bigEndian 4 l := by
  rw [reverseByte_leBytes]; exact bigEndian_mod 4 l

/-- What `EncodeString` does, in one equation. -/
theorem EncodeString_eq (wtr : Writer) (s : List Nat) :
    EncodeString wtr s =
      if s.length ≤ 4294967295 then (wtr ++ strHeader s.length ++ s, .nil)
      else (wtr, .panicked "String larger than 4 gigs!") := by
  unfold EncodeString strHeader
  simp only [writeByte, Writer.WriteByte, Writer.Write, WriteString, reverseByte_len16,
    reverseByte_len32]
  by_cases h1 : s.length ≤ 31
  · have hf := fix_control 0xa0 s.length h1 (by decide)
    simp [h1, hf, (by omega : s.length ≤ 4294967295)]
  by_cases h2 : s.length ≤ 255
  · simp [h1, h2, Nat.mod_eq_of_lt (by omega : s.length < 256),
      (by omega : s.length ≤ 4294967295)]
  by_cases h3 : s.length ≤ 65535
  · simp [h1, h2, h3, (by omega : s.length ≤ 4294967295)]
  by_cases h4 : s.length ≤ 4294967295
  · simp [h1, h2, h3, h4]
  · simp [h1, h2, h3, h4]

/-- What `EncodeBin` does, in one equation. -/
theorem EncodeBin_eq (wtr : Writer) (b : List Nat) :
    EncodeBin wtr b =
      if b.length ≤ 4294967295 then (wtr ++ binHeader b.length ++ b, .nil)
      else (wtr, .panicked "Binary larger than 4 gigs!") := by
  unfold EncodeBin binHeader
  simp only [writeByte, Writer.WriteByte, Writer.Write, reverseByte_len16, reverseByte_len32]
  by_cases h2 : b.length ≤ 255
  · simp [h2, Nat.mod_eq_of_lt (by omega : b.length < 256),
      (by omega : b.length ≤ 4294967295)]
  by_cases h3 : b.length ≤ 65535
  · simp [h2, h3, (by omega : b.length ≤ 4294967295)]
  by_cases h4 : b.length ≤ 4294967295
  · simp [h2, h3, h4]
  · simp [h2, h3, h4]

/-- What the header part of `encodeArray` does, in one equation. -/
theorem encodeArrayHeader_eq (wtr : Writer) (l : Nat) :
    encodeArrayHeader wtr l =
      if l ≤ 4294967295 then (wtr ++ arrayHeader l, .nil)
      else (wtr, .panicked "Array size larger than 4294967295!") := by
  unfold encodeArrayHeader arrayHeader
  simp only [writeByte, Writer.WriteByte, Writer.Write, reverseByte_len16, reverseByte_len32]
  by_cases h1 : l ≤ 15
  · have hf := fix_control 0x90 l (by omega) (by decide)
    simp [h1, hf, (by omega : l ≤ 4294967295)]
  by_cases h3 : l ≤ 65535
  · simp [h1, h3, (by omega : l ≤ 4294967295)]
  by_cases h4 : l ≤ 4294967295
  · simp [h1, h3, h4]
  · simp [h1, h3, h4]

/-- What `encodeMapHeader` does, in one equation. -/
theorem encodeMapHeader_eq (wtr : Writer) (l : Nat) :
    encodeMapHeader wtr l =
      if l ≤ 4294967295 then (wtr ++ mapHeader l, .nil)
      else (wtr, .panicked "Array size larger than 4294967295!") := by
  unfold encodeMapHeader mapHeader
  simp only [writeByte, Writer.WriteByte, Writer.Write, reverseByte_len16, reverseByte_len32]
  by_cases h1 : l ≤ 15
  · have hf := fix_control 0x80 l (by omega) (by decide)
    simp [h1, hf, (by omega : l ≤ 4294967295)]
  by_cases h3 : l ≤ 65535
  · simp [h1, h3, (by omega : l ≤ 4294967295)]
  by_cases h4 : l ≤ 4294967295
  · simp [h1, h3, h4]
  · simp [h1, h3, h4]

/-! ## Encoding appends -/

theorem EncodeInt_append (wtr : Writer) (val bsize : Int) :
    EncodeInt wtr val bsize = (wtr ++ (EncodeInt [] val bsize).1, (EncodeInt [] val bsize).2) := by
  unfold EncodeInt encodeFixNumInt
  simp only [writeByte, Writer.Write, Writer.WriteByte]
  split_ifs <;> simp

theorem EncodeUint_append (wtr : Writer) (val : Nat) (bsize : Int) :
    EncodeUint wtr val bsize =
      (wtr ++ (EncodeUint [] val bsize).1, (EncodeUint [] val bsize).2) := by
  unfold EncodeUint encodeFixNumInt
  simp only [writeByte, Writer.Write, Writer.WriteByte]
  split_ifs <;> simp

theorem EncodeString_append (wtr : Writer) (s : List Nat) :
    EncodeString wtr s = (wtr ++ (EncodeString [] s).1, (EncodeString [] s).2) := by
  rw [EncodeString_eq wtr, EncodeString_eq []]
  split_ifs <;> simp

theorem EncodeBin_append (wtr : Writer) (b : List Nat) :
    EncodeBin wtr b = (wtr ++ (EncodeBin [] b).1, (EncodeBin [] b).2) := by
  rw [EncodeBin_eq wtr, EncodeBin_eq []]
  split_ifs <;> simp

theorem Outcome_cases (p : Writer × Outcome) :
    (p.2 = .nil ∧ p = (p.1, .nil)) ∨ (p.2 ≠ .nil ∧ p = (p.1, p.2)) := by
  obtain ⟨w, o⟩ := p
  cases o <;> simp

mutual
/-- `Encode` only appends to the buffer, and what it appends and returns does not depend
on what the buffer held. -/
theorem Encode_append : ∀ (v : GoValue) (wtr : Writer),
    Encoder.Encode v wtr = (wtr ++ (Encoder.Encode v []).1, (Encoder.Encode v []).2)
  | .int64 val, wtr => by simp only [Encoder.Encode]; exact EncodeInt_append _ _ _
  | .int32 val, wtr => by simp only [Encoder.Encode]; exact EncodeInt_append _ _ _
  | .int16 val, wtr => by simp only [Encoder.Encode]; exact EncodeInt_append _ _ _
  | .int8 val, wtr => by simp only [Encoder.Encode]; exact EncodeInt_append _ _ _
  | .int val, wtr => by simp only [Encoder.Encode]; exact EncodeInt_append _ _ _
  | .uint64 val, wtr => by simp only [Encoder.Encode]; exact EncodeUint_append _ _ _
  | .uint32 val, wtr => by simp only [Encoder.Encode]; exact EncodeUint_append _ _ _
  | .uint16 val, wtr => by simp only [Encoder.Encode]; exact EncodeUint_append _ _ _
  | .uint8 val, wtr => by simp only [Encoder.Encode]; exact EncodeUint_append _ _ _
  | .uint val, wtr => by simp only [Encoder.Encode]; exact EncodeUint_append _ _ _
  | .float64 val, wtr => by
    simp [Encoder.Encode, EncodeFloat64, writeByte, Writer.Write, Writer.WriteByte]
  | .float32 val, wtr => by
    simp [Encoder.Encode, EncodeFloat32, writeByte, Writer.Write, Writer.WriteByte]
  | .bool val, wtr => by simp [Encoder.Encode, EncodeBool, Writer.WriteByte]
  | .string val, wtr => by simp only [Encoder.Encode]; exact EncodeString_append _ _
  | .bytes val, wtr => by simp only [Encoder.Encode]; exact EncodeBin_append _ _
  | .nil, wtr => by simp [Encoder.Encode, EncodeNil, writeByte, Writer.WriteByte]
  | .slice elems, wtr => by
    simp only [Encoder.Encode, encodeArrayHeader_eq]
    split_ifs
    · simp only [List.nil_append]
      rw [encodeArrayLoop_append elems (wtr ++ _), encodeArrayLoop_append elems (arrayHeader _)]
      simp
    · simp
  | .map pairs, wtr => by
    simp only [Encoder.Encode, encodeMapHeader_eq]
    split_ifs
    · simp only [List.nil_append]
      rw [encodeMapLoop_append pairs (wtr ++ _), encodeMapLoop_append pairs (mapHeader _)]
      simp
    · simp
  | .struct fields, wtr => by
    simp only [Encoder.Encode, encodeMapHeader_eq]
    split_ifs
    · simp only [List.nil_append]
      rw [encodeStructLoop_append fields (wtr ++ _),
        encodeStructLoop_append fields (mapHeader _)]
      simp
    · simp
  | .ptr none, wtr => by simp [Encoder.Encode, EncodeNil, writeByte, Writer.WriteByte]
  | .ptr (some v), wtr => by simp only [Encoder.Encode]; exact Encode_append v wtr
  | .other typeName, wtr => by simp [Encoder.Encode]
/-- The element loop only appends. -/
theorem encodeArrayLoop_append : ∀ (elems : List GoValue) (wtr : Writer),
    Encoder.encodeArrayLoop elems wtr =
      (wtr ++ (Encoder.encodeArrayLoop elems []).1, (Encoder.encodeArrayLoop elems []).2)
  | [], wtr => by simp [Encoder.encodeArrayLoop]
  | ed :: rest, wtr => by
    simp only [Encoder.encodeArrayLoop]
    rw [Encode_append ed wtr]
    rcases Outcome_cases (Encoder.Encode ed []) with ⟨h, he⟩ | ⟨h, he⟩
    · rw [he]
      simp only [h, List.nil_append]
      rw [encodeArrayLoop_append rest (wtr ++ _), encodeArrayLoop_append rest (Encoder.Encode ed []).1]
      simp
    · generalize Encoder.Encode ed [] = p at h he
      obtain ⟨w, o⟩ := p
      cases o <;> simp at h ⊢
/-- The pair loop only appends. -/
theorem encodeMapLoop_append : ∀ (pairs : List (GoValue × GoValue)) (wtr : Writer),
    Encoder.encodeMapLoop pairs wtr =
      (wtr ++ (Encoder.encodeMapLoop pairs []).1, (Encoder.encodeMapLoop pairs []).2)
  | [], wtr => by simp [Encoder.encodeMapLoop]
  | (key, val) :: rest, wtr => by
    simp only [Encoder.encodeMapLoop]
    by_cases hse : key.selfEqual = false
    · simp [hse]
    · simp only [hse, if_false]
      rw [Encode_append key wtr]
      generalize hk : Encoder.Encode key [] = pk
      obtain ⟨wk, ok⟩ := pk
      cases ok with
      | nil =>
        simp only [List.nil_append]
        rw [Encode_append val (wtr ++ wk), Encode_append val wk]
        generalize hv : Encoder.Encode val [] = pv
        obtain ⟨wv, ov⟩ := pv
        cases ov with
        | nil =>
          simp only
          rw [encodeMapLoop_append rest (wtr ++ wk ++ wv),
            encodeMapLoop_append rest (wk ++ wv)]
          simp
        | err e => simp
        | panicked m => simp
      | err e => simp
      | panicked m => simp
/-- The field loop only appends. -/
theorem encodeStructLoop_append : ∀ (fields : List (StructField GoValue)) (wtr : Writer),
    Encoder.encodeStructLoop fields wtr =
      (wtr ++ (Encoder.encodeStructLoop fields []).1, (Encoder.encodeStructLoop fields []).2)
  | [], wtr => by simp [Encoder.encodeStructLoop]
  | ⟨name, tag, exported, val⟩ :: rest, wtr => by
    simp only [Encoder.encodeStructLoop]
    split
    · exact encodeStructLoop_append rest wtr
    · rename_i tname _
      cases exported with
      | false => simp
      | true =>
        simp only [Bool.true_eq_false, if_false]
        rw [EncodeString_append wtr]
        generalize hk : EncodeString [] (tname.getD name) = pk
        obtain ⟨wk, ok⟩ := pk
        cases ok with
        | nil =>
          simp only [List.nil_append]
          rw [Encode_append val (wtr ++ wk), Encode_append val wk]
          generalize hv : Encoder.Encode val [] = pv
          obtain ⟨wv, ov⟩ := pv
          cases ov with
          | nil =>
            simp only
            rw [encodeStructLoop_append rest (wtr ++ wk ++ wv),
              encodeStructLoop_append rest (wk ++ wv)]
            simp
          | err e => simp
          | panicked m => simp
        | err e => simp
        | panicked m => simp
end

/-! ## Composite values -/

theorem Encode_of_encodable (v : GoValue) (wtr : Writer) (h : encodable v) :
    Encoder.Encode v wtr = (wtr ++ encoding v, .nil) := by
  rw [Encode_append v wtr, h, encoding]

/-- The element loop writes the encodings of the elements one after the other. -/
theorem encodeArrayLoop_eq (elems : List GoValue) (wtr : Writer)
    (h : ∀ e ∈ elems, encodable e) :
    Encoder.encodeArrayLoop elems wtr = (wtr ++ (elems.map encoding).flatten, .nil) := by
  induction elems generalizing wtr with
  | nil => simp [Encoder.encodeArrayLoop]
  | cons ed rest ih =>
    simp only [Encoder.encodeArrayLoop,
      Encode_of_encodable ed wtr (h ed (List.mem_cons_self _ _))]
    rw [ih _ (fun e he => h e (List.mem_cons_of_mem _ he))]
    simp

/-- The pair loop writes, for each pair, the key and then the value. -/
theorem encodeMapLoop_eq (pairs : List (GoValue × GoValue)) (wtr : Writer)
    (hfound : ∀ p ∈ pairs, p.1.selfEqual = true)
    (h : ∀ p ∈ pairs, encodable p.1 ∧ encodable p.2) :
    Encoder.encodeMapLoop pairs wtr =
      (wtr ++ (pairs.map (fun p => encoding p.1 ++ encoding p.2)).flatten, .nil) := by
  induction pairs generalizing wtr with
  | nil => simp [Encoder.encodeMapLoop]
  | cons p rest ih =>
    obtain ⟨key, val⟩ := p
    have hp := h (key, val) (List.mem_cons_self _ _)
    have hf : key.selfEqual = true := hfound (key, val) (List.mem_cons_self _ _)
    simp only [Encoder.encodeMapLoop, hf, Bool.true_eq_false, if_false,
      Encode_of_encodable key wtr hp.1, Encode_of_encodable val _ hp.2]
    rw [ih _ (fun e he => hfound e (List.mem_cons_of_mem _ he))
      (fun e he => h e (List.mem_cons_of_mem _ he))]
    simp

/-- A stream starting with a control byte that `Token` has no case for is decoded without
error and without touching the destination; only that byte is consumed. -/
theorem Decode_unhandled (c : Nat) (rest : List Nat) (d : RValue)
    (hd : ∀ e, d ≠ .ptr e)
    (h1 : 0x80 ≤ c) (h2 : c ≤ 0xdf) (h3 : c < 0xcc ∨ 0xd3 < c) :
    (NewDecoder (c :: rest)).Decode (.ptr d) = (⟨rest, false, 0⟩, .ptr d, .nil) := by
  have ht := Token_unhandled c rest false 0 h1 h2 h3
  cases d with
  | ptr e => exact absurd rfl (hd e)
  | int bits v => simp [Decoder.Decode, Decoder.decode, NewDecoder, ht, Decoder.store]
  | uint bits v => simp [Decoder.Decode, Decoder.decode, NewDecoder, ht, Decoder.store]
  | bool b => simp [Decoder.Decode, Decoder.decode, NewDecoder, ht, Decoder.store]
  | string s => simp [Decoder.Decode, Decoder.decode, NewDecoder, ht, Decoder.store]
  | bytes b => simp [Decoder.Decode, Decoder.decode, NewDecoder, ht, Decoder.store]

/-- A payload read that finds some bytes but not all of them is not an error: the token
is built from the bytes that were there, the missing ones being zero. -/
theorem Token_short_read :
    Decoder.Token ⟨[0xcd, 0x01], false, 0⟩ = (⟨[], false, Uint16⟩, .uint16 256, .nil) ∧
    Decoder.Token ⟨[0xd3, 0xff], false, 0⟩ =
      (⟨[], false, Int64⟩, .int64 (-72057594037927936), .nil) := by
  decide

/-! ## Floats, negative integers, fixnum decoding -/

/-- What the two float encoders write. -/
theorem EncodeFloat_eq (wtr : Writer) (f : Nat) :
    EncodeFloat64 wtr f = (wtr ++ 0xca :: bigEndian 8 f, .nil) ∧
    EncodeFloat32 wtr f = (wtr ++ 0xca :: bigEndian 4 f, .nil) := by
  simp [EncodeFloat64, EncodeFloat32, writeByte, Writer.Write, Writer.WriteByte,
    reverseByte_leBytes]

/-- The fixnum test of `EncodeInt` holds for every negative 64-bit value. -/
theorem EncodeInt_negative (wtr : Writer) (v bsize : Int) (hneg : v < 0)
    (hmin : -2 ^ 63 ≤ v) :
    EncodeInt wtr v bsize = encodeFixNumInt wtr (int8 v) := by
  obtain ⟨m, rfl⟩ : ∃ m : Nat, v = Int.negSucc m := by
    cases v with
    | ofNat n => exact absurd hneg (by simp)
    | negSucc m => exact ⟨m, rfl⟩
  have hm : m < 2 ^ 63 := by
    rw [Int.negSucc_eq] at hmin
    omega
  have hx : Int.xor (Int.negSucc m) 0xff = Int.negSucc (m ^^^ 255) := rfl
  have hk : m ^^^ 255 < 2 ^ 63 := Nat.xor_lt_two_pow hm (by decide)
  have hc : int64 (Int.xor (Int.negSucc m) 0xff + 1) < 0x1f := by
    rw [hx, Int.negSucc_eq]
    unfold int64 toSigned
    norm_num
    omega
  unfold EncodeInt
  simp only [if_pos (Or.inr ⟨hneg, hc⟩ :
    (Int.negSucc m ≤ 0x7f ∧ Int.negSucc m ≥ 0) ∨
      (Int.negSucc m < 0 ∧ int64 (Int.xor (Int.negSucc m) 0xff + 1) < 0x1f))]

/-- Conversion `int8` in terms of the low 8 bits. -/
theorem int8_of_uint8 (v : Int) :
    int8 v = if uint8 v < 128 then (uint8 v : Int) else (uint8 v : Int) - 256 := by
  unfold int8 uint8 toSigned toUnsigned
  have h : ((v % 2 ^ 8).toNat : Int) = v % 2 ^ 8 :=
    Int.toNat_of_nonneg (Int.emod_nonneg _ (by norm_num))
  split_ifs with hlt
  · rw [h]; norm_num; omega
  · rw [h]; norm_num; omega

theorem uint8_lt (v : Int) : uint8 v < 256 := by
  unfold uint8 toUnsigned
  have : v % 2 ^ 8 < 2 ^ 8 := Int.emod_lt_of_pos _ (by norm_num)
  omega

/-- What `encodeFixNumInt` does on the `int8` whose bit pattern is `u`. -/
theorem encodeFixNumInt_bits (wtr : Writer) (u : Nat) (hu : u < 256) :
    encodeFixNumInt wtr (if u < 128 then (u : Int) else (u : Int) - 256) =
      if u ≤ 0x7f then (wtr ++ [u], .nil)
      else if 226 ≤ u then (wtr ++ [0xe0 ||| (256 - u)], .nil)
      else (wtr, .err .errFixNumOutOfBounds) := by
  interval_cases u <;> rfl

/-- What `encodeFixNumInt` does on an `int8`, by value. -/
theorem encodeFixNumInt_eq (wtr : Writer) (val : Int) (h1 : -128 ≤ val) (h2 : val ≤ 127) :
    encodeFixNumInt wtr val =
      if 0 ≤ val then (wtr ++ [val.toNat], .nil)
      else if -30 ≤ val then (wtr ++ [0xe0 ||| (-val).toNat], .nil)
      else (wtr, .err .errFixNumOutOfBounds) := by
  interval_cases val <;> rfl

theorem fixint_low5 (m : Nat) (h : m ≤ 31) : (0xe0 ||| m) &&& 0x1f = m ∧
    0xe0 ≤ (0xe0 ||| m) ∧ (0xe0 ||| m) ≤ 0xff := by
  interval_cases m <;> decide

/-! ## Sequences of unsigned values -/

theorem encodeEach_append (vs : List GoValue) (wtr : Writer) :
    encodeEach vs wtr = wtr ++ encodeEach vs [] := by
  induction vs generalizing wtr with
  | nil => simp [encodeEach]
  | cons v vs ih =>
    simp only [encodeEach, List.foldl_cons] at ih ⊢
    rw [ih (Encoder.Encode v wtr).1, ih (Encoder.Encode v []).1, Encode_append v wtr]
    simp

theorem encodeEach_cons (v : GoValue) (vs : List GoValue) :
    encodeEach (v :: vs) [] = encoding v ++ encodeEach vs [] := by
  show encodeEach vs (Encoder.Encode v []).1 = _
  rw [encodeEach_append]
  rfl

/-- The bytes written for an unsigned value of width 8, 16, 32 or 64 bits. -/
theorem encoding_uintOf (x : Nat × Nat)
    (hw : x.1 = 8 ∨ x.1 = 16 ∨ x.1 = 32 ∨ x.1 = 64) :
    encoding (uintOf x) =
      if x.2 ≤ 127 then [x.2]
      else (if x.1 = 8 then 0xcc else if x.1 = 16 then 0xcd else if x.1 = 32 then 0xce
        else 0xcf) :: bigEndian (x.1 / 8) x.2 := by
  obtain ⟨w, n⟩ := x
  simp only at hw ⊢
  by_cases h : n ≤ 127
  · rcases hw with rfl | rfl | rfl | rfl <;>
      simp [encoding, uintOf, Encoder.Encode, EncodeUint_fixpos _ _ _ h, h]
  · have h2 : 127 < n := by omega
    rcases hw with rfl | rfl | rfl | rfl <;>
      simp [encoding, uintOf, Encoder.Encode, EncodeUint_large _ _ _ h2, h, tdiv_widths]

/-- One call of `Token` on the bytes written for an unsigned value, whatever follows
them: the token and the kind are the expected ones and exactly those bytes are read. -/
theorem Token_uintOf (x : Nat × Nat) (R : List Nat) (eof : Bool) (k : Kind)
    (hw : x.1 = 8 ∨ x.1 = 16 ∨ x.1 = 32 ∨ x.1 = 64) (hfit : x.2 < 2 ^ x.1) :
    Decoder.Token ⟨encoding (uintOf x) ++ R, eof, k⟩ =
      (⟨R, eof, uintKind x⟩, uintToken x, .nil) := by
  rw [encoding_uintOf x hw]
  obtain ⟨w, n⟩ := x
  simp only at hw hfit ⊢
  by_cases h : n ≤ 127
  · simp only [if_pos h, uintKind, uintToken, List.singleton_append]
    exact Token_fixuint n R eof k h
  · simp only [if_neg h, uintKind, uintToken, List.cons_append]
    rcases hw with rfl | rfl | rfl | rfl
    · have hm : n % 256 ^ 1 = n := Nat.mod_eq_of_lt (by simpa using hfit)
      have t := (Token_uint (bigEndian 1 n) R eof k).1 (bigEndian_length 1 n)
      rw [reverseByte_bigEndian, ofLE_leBytes, hm] at t
      simpa using t
    · have hm : n % 256 ^ 2 = n := Nat.mod_eq_of_lt (by simpa using hfit)
      have t := (Token_uint (bigEndian 2 n) R eof k).2.1 (bigEndian_length 2 n)
      rw [reverseByte_bigEndian, ofLE_leBytes, hm] at t
      simpa using t
    · have hm : n % 256 ^ 4 = n := Nat.mod_eq_of_lt (by simpa using hfit)
      have t := (Token_uint (bigEndian 4 n) R eof k).2.2.1 (bigEndian_length 4 n)
      rw [reverseByte_bigEndian, ofLE_leBytes, hm] at t
      simpa using t
    · have hm : n % 256 ^ 8 = n := Nat.mod_eq_of_lt (by simpa using hfit)
      have t := (Token_uint (bigEndian 8 n) R eof k).2.2.2 (bigEndian_length 8 n)
      rw [reverseByte_bigEndian, ofLE_leBytes, hm] at t
      simpa using t

/-- As many calls of `Token` as values were encoded return the expected tokens and leave
nothing unread. -/
theorem Tokens_uint (xs : List (Nat × Nat)) (eof : Bool) (k : Kind)
    (h : ∀ x ∈ xs, (x.1 = 8 ∨ x.1 = 16 ∨ x.1 = 32 ∨ x.1 = 64) ∧ x.2 < 2 ^ x.1) :
    (Decoder.Tokens xs.length ⟨encodeEach (xs.map uintOf) [], eof, k⟩).2 = expectedTokens xs ∧
    (Decoder.Tokens xs.length ⟨encodeEach (xs.map uintOf) [], eof, k⟩).1.rdr = [] := by
  induction xs generalizing k with
  | nil => simp [Decoder.Tokens, expectedTokens, encodeEach]
  | cons x xs ih =>
    obtain ⟨hw, hfit⟩ := h x (List.mem_cons_self _ _)
    have ih2 := ih (uintKind x) (fun y hy => h y (List.mem_cons_of_mem _ hy))
    simp only [List.map_cons, List.length_cons, encodeEach_cons, Decoder.Tokens,
      Token_uintOf x _ eof k hw hfit, expectedTokens, Decoder.Kind]
    exact ⟨by rw [ih2.1], ih2.2⟩

/-! ## Facts about struct tags -/

theorem splitComma_no_comma (s : List Nat) (h : 0x2c ∉ s) : splitComma s = [s] := by
  induction s with
  | nil => rfl
  | cons c cs ih =>
    have hc : c ≠ 0x2c := fun e => h (e ▸ List.mem_cons_self _ _)
    have hcs : 0x2c ∉ cs := fun e => h (List.mem_cons_of_mem _ e)
    simp [splitComma, hc, ih hcs]

theorem splitComma_append (s rest : List Nat) (h : 0x2c ∉ s) :
    splitComma (s ++ 0x2c :: rest) = s :: splitComma rest := by
  induction s with
  | nil => simp [splitComma]
  | cons c cs ih =>
    have hc : c ≠ 0x2c := fun e => h (e ▸ List.mem_cons_self _ _)
    have hcs : 0x2c ∉ cs := fun e => h (List.mem_cons_of_mem _ e)
    simp [splitComma, hc, ih hcs]

/-- A string that neither starts nor ends with a white-space rune is left alone by
`TrimSpace`. -/
theorem TrimSpace_id (s : List Nat) (h1 : hasLeadingSpace s = false)
    (h2 : hasTrailingSpace s = false) : TrimSpace s = s := by
  have f1 : spaceRunes.find? (fun r => r.isPrefixOf s) = none := by
    rw [List.find?_eq_none]
    exact List.any_eq_false.mp h1
  have f2 : spaceRunes.find? (fun r => r.isSuffixOf s) = none := by
    rw [List.find?_eq_none]
    exact List.any_eq_false.mp h2
  have l : ∀ fuel, trimLeftSpace fuel s = s := by
    intro fuel
    cases fuel with
    | zero => rfl
    | succ n => simp [trimLeftSpace, f1]
  have r : ∀ fuel, trimRightSpace fuel s = s := by
    intro fuel
    cases fuel with
    | zero => rfl
    | succ n => simp [trimRightSpace, f2]
  simp [TrimSpace, l, r]

/-! ## Structs -/

/-- A map whose keys are all equal to themselves, with encodable keys and values, is
written as its header followed by, for each pair in the order of `MapKeys`, the key and
then the value. -/
theorem Encode_map_of_found (wtr : Writer) (pairs : List (GoValue × GoValue))
    (hn : pairs.length ≤ 4294967295) (hfound : ∀ p ∈ pairs, p.1.selfEqual = true)
    (henc : ∀ p ∈ pairs, encodable p.1 ∧ encodable p.2) :
    Encoder.Encode (.map pairs) wtr =
      (wtr ++ mapHeader pairs.length ++
        (pairs.map (fun p => encoding p.1 ++ encoding p.2)).flatten, .nil) := by
  simp only [Encoder.Encode, encodeMapHeader_eq, if_pos hn]
  rw [encodeMapLoop_eq pairs _ hfound henc]

/-! ## The claims -/

/-- C1: for every unsigned integer `n` of width 8, 16, 32 or 64 bits (Go `uint8`,
`uint16`, `uint32`, `uint64`, `uint`), `Unmarshal(Marshal(n), &d)` with `d` a variable of
the same unsigned type returns no error and leaves `d == n`, whatever `d` held before. -/
theorem C1_uint_round_trip (n d0 : Nat) :
    (n < 2 ^ 8 → ∃ b, Marshal (.uint8 n) = (some b, .nil) ∧
      Unmarshal b (.ptr (.uint 8 d0)) = (.ptr (.uint 8 n), .nil)) ∧
    (n < 2 ^ 16 → ∃ b, Marshal (.uint16 n) = (some b, .nil) ∧
      Unmarshal b (.ptr (.uint 16 d0)) = (.ptr (.uint 16 n), .nil)) ∧
    (n < 2 ^ 32 → ∃ b, Marshal (.uint32 n) = (some b, .nil) ∧
      Unmarshal b (.ptr (.uint 32 d0)) = (.ptr (.uint 32 n), .nil)) ∧
    (n < 2 ^ 64 → ∃ b, Marshal (.uint64 n) = (some b, .nil) ∧
      Unmarshal b (.ptr (.uint 64 d0)) = (.ptr (.uint 64 n), .nil)) ∧
    (n < 2 ^ 64 → ∃ b, Marshal (.uint n) = (some b, .nil) ∧
      Unmarshal b (.ptr (.uint 64 d0)) = (.ptr (.uint 64 n), .nil)) := by
  obtain ⟨m8, m16, m32, m64, mw⟩ := Marshal_uint n
  obtain ⟨u8, u16, u32, u64⟩ := Unmarshal_uint_envelope n d0
  by_cases h : n ≤ 127
  · rw [if_pos h] at m8 m16 m32 m64 mw
    exact ⟨fun _ => ⟨_, m8, Unmarshal_fixuint n 8 d0 h (by decide)⟩,
      fun _ => ⟨_, m16, Unmarshal_fixuint n 16 d0 h (by decide)⟩,
      fun _ => ⟨_, m32, Unmarshal_fixuint n 32 d0 h (by decide)⟩,
      fun _ => ⟨_, m64, Unmarshal_fixuint n 64 d0 h (by decide)⟩,
      fun _ => ⟨_, mw, Unmarshal_fixuint n 64 d0 h (by decide)⟩⟩
  · rw [if_neg h] at m8 m16 m32 m64 mw
    exact ⟨fun hn => ⟨_, m8, u8 hn⟩, fun hn => ⟨_, m16, u16 hn⟩, fun hn => ⟨_, m32, u32 hn⟩,
      fun hn => ⟨_, m64, u64 hn⟩, fun hn => ⟨_, mw, u64 hn⟩⟩

/-- Witness of C1: the value 392423 of `TestUnmarshal`, as a `uint64`. -/
theorem C1_uint_round_trip_witness :
    (392423 : Nat) < 2 ^ 64 ∧
    ∃ b, Marshal (.uint64 392423) = (some b, .nil) ∧
      Unmarshal b (.ptr (.uint 64 0)) = (.ptr (.uint 64 392423), .nil) :=
  ⟨by decide, (C1_uint_round_trip 392423 0).2.2.2.1 (by decide)⟩

/-- C2 (the code departs from it): a signed integer does not survive
`Unmarshal(Marshal(i), &d)`. `int16(-257)` is marshalled to the single byte `0xe1`, which
decodes to `-1`; `int8(-33)` makes `Marshal` return the fixnum out-of-bounds error;
`int(5)` is marshalled to `0x05`, whose token is a `uint8`, and storing it in a signed
variable panics. -/
theorem C2_int_round_trip_fails :
    Marshal (.int16 (-257)) = (some [0xe1], .nil) ∧
    Unmarshal [0xe1] (.ptr (.int 16 0)) = (.ptr (.int 16 (-1)), .nil) ∧
    Marshal (.int8 (-33)) = (none, .err .errFixNumOutOfBounds) ∧
    Marshal (.int 5) = (some [0x05], .nil) ∧
    Unmarshal [0x05] (.ptr (.int 64 0)) =
      (.ptr (.int 64 0), .panicked "reflect: call of reflect.Value.SetUint on non-uint Value") := by
  decide

/-- C3 as stated fails: `true` is marshalled to `0xc3`, and decoding `0xc3` into a boolean
variable holding `false` returns no error and leaves `false` there. -/
theorem C3_bool_not_decoded :
    Marshal (.bool true) = (some [0xc3], .nil) ∧
    Unmarshal [0xc3] (.ptr (.bool false)) = (.ptr (.bool false), .nil) := by
  decide

/-- C3, amended: for every boolean, every string and every byte blob of length at most
4294967295, `Marshal` returns bytes and no error, and decoding those bytes into a variable
of the same type returns no error and leaves the variable as it was: the decoder has no
case for the control bytes of these kinds. -/
theorem C3_decoder_skips_bool_string_bin :
    (∀ v d : Bool, ∃ b, Marshal (.bool v) = (some b, .nil) ∧
      Unmarshal b (.ptr (.bool d)) = (.ptr (.bool d), .nil)) ∧
    (∀ s d : List Nat, s.length ≤ 4294967295 → ∃ b, Marshal (.string s) = (some b, .nil) ∧
      Unmarshal b (.ptr (.string d)) = (.ptr (.string d), .nil)) ∧
    (∀ s d : List Nat, s.length ≤ 4294967295 → ∃ b, Marshal (.bytes s) = (some b, .nil) ∧
      Unmarshal b (.ptr (.bytes d)) = (.ptr (.bytes d), .nil)) := by
  refine ⟨?_, ?_, ?_⟩
  · intro v d
    cases v
    · exact ⟨[0xc2], rfl, Unmarshal_unhandled _ _ _ (by intro e; simp) (by decide) (by decide)
        (by decide)⟩
    · exact ⟨[0xc3], rfl, Unmarshal_unhandled _ _ _ (by intro e; simp) (by decide) (by decide)
        (by decide)⟩
  · intro s d hs
    obtain ⟨c, tl, he, hc⟩ := EncodeString_head s hs
    refine ⟨c :: tl, by simp [Marshal, Encoder.Encode, he], ?_⟩
    apply Unmarshal_unhandled _ _ _ (by intro e; simp) <;> omega
  · intro s d hs
    obtain ⟨c, tl, he, hc⟩ := EncodeBin_head s hs
    refine ⟨c :: tl, by simp [Marshal, Encoder.Encode, he], ?_⟩
    apply Unmarshal_unhandled _ _ _ (by intro e; simp) <;> omega

/-- Witness of C3, amended: the string "test" is marshalled, and decoding the bytes into a
string variable holding "x" leaves "x". -/
theorem C3_decoder_skips_witness :
    [0x74, 0x65, 0x73, 0x74].length ≤ 4294967295 ∧
    ∃ b, Marshal (.string [0x74, 0x65, 0x73, 0x74]) = (some b, .nil) ∧
      Unmarshal b (.ptr (.string [0x78])) = (.ptr (.string [0x78]), .nil) :=
  ⟨by decide, C3_decoder_skips_bool_string_bin.2.1 [0x74, 0x65, 0x73, 0x74] [0x78] (by decide)⟩

/-- C4: for every width `w` in {8,16,32,64} and every value `v > 127` that fits in `w`
bits, `EncodeUint(v, w)` writes exactly `1 + w/8` bytes, the control byte
`0xcc/0xcd/0xce/0xcf` followed by the `w/8` bytes of `v` most significant first; and for
such a `v` that is a signed 64-bit value, `EncodeInt(v, w)` writes the control byte
`0xd0/0xd1/0xd2/0xd3` followed by the same bytes. The payload read as a big-endian number
is `v`. -/
theorem C4_envelope_by_width (wtr : Writer) (w v : Nat)
    (hw : w = 8 ∨ w = 16 ∨ w = 32 ∨ w = 64) (hv : 127 < v) (hfit : v < 2 ^ w) :
    EncodeUint wtr v w =
      (wtr ++ (if w = 8 then 0xcc else if w = 16 then 0xcd else if w = 32 then 0xce else 0xcf)
        :: bigEndian (w / 8) v, .nil) ∧
    (v < 2 ^ 63 → EncodeInt wtr v w =
      (wtr ++ (if w = 8 then 0xd0 else if w = 16 then 0xd1 else if w = 32 then 0xd2 else 0xd3)
        :: bigEndian (w / 8) v, .nil)) ∧
    (bigEndian (w / 8) v).length = w / 8 ∧
    ofLE (bigEndian (w / 8) v).reverse = v := by
  refine ⟨?_, ?_, bigEndian_length _ _, ofLE_reverse_bigEndian _ _ ?_⟩
  · rcases hw with rfl | rfl | rfl | rfl <;>
      simp [EncodeUint_large _ _ _ hv, tdiv_widths]
  · intro h63
    rcases hw with rfl | rfl | rfl | rfl <;>
      simp [EncodeInt_large _ _ _ hv h63, tdiv_widths]
  · rcases hw with rfl | rfl | rfl | rfl <;> simpa using hfit

/-- Witness of C4: `uint32(0x00100000)` gives `ce 00 10 00 00`, and
`int64(0x0033ffaabbcceeff)` gives `d3 00 33 ff aa bb cc ee ff`. -/
theorem C4_envelope_by_width_witness :
    EncodeUint [] 0x00100000 32 = ([0xce, 0x00, 0x10, 0x00, 0x00], .nil) ∧
    EncodeInt [] 0x0033ffaabbcceeff 64 =
      ([0xd3, 0x00, 0x33, 0xff, 0xaa, 0xbb, 0xcc, 0xee, 0xff], .nil) :=
  ⟨(C4_envelope_by_width [] 32 0x00100000 (by decide) (by decide) (by decide)).1,
   (C4_envelope_by_width [] 64 0x0033ffaabbcceeff (by decide) (by decide) (by decide)).2.1
     (by decide)⟩

/-- C5 as stated fails: `-32` is in the claimed range, yet `EncodeInt(-32, w)` writes
nothing and returns the fixnum out-of-bounds error, for each of the four widths. -/
theorem C5_minus32_rejected :
    EncodeInt [] (-32) 8 = ([], .err .errFixNumOutOfBounds) ∧
    EncodeInt [] (-32) 16 = ([], .err .errFixNumOutOfBounds) ∧
    EncodeInt [] (-32) 32 = ([], .err .errFixNumOutOfBounds) ∧
    EncodeInt [] (-32) 64 = ([], .err .errFixNumOutOfBounds) := by
  decide

/-- C5, amended: for every signed value `v` with `-30 ≤ v ≤ 127` and every bit width,
`EncodeInt(v, bitWidth)` returns no error and writes exactly one byte. -/
theorem C5_fixnum_one_byte (wtr : Writer) (v : Int) (bitWidth : Int)
    (h1 : -30 ≤ v) (h2 : v ≤ 127) :
    ∃ b, b < 256 ∧ EncodeInt wtr v bitWidth = (wtr ++ [b], .nil) := by
  by_cases h : 0 ≤ v
  · obtain ⟨n, rfl⟩ := Int.eq_ofNat_of_zero_le h
    exact ⟨n, by omega, EncodeInt_fixpos wtr n bitWidth (by omega)⟩
  · obtain ⟨m, hm⟩ : ∃ m : Nat, v = -(m : Int) := ⟨(-v).toNat, by omega⟩
    subst hm
    have h30 : m ≤ 30 := by omega
    refine ⟨0xE0 ||| m, ?_, EncodeInt_fixneg wtr m bitWidth (by omega) h30⟩
    interval_cases m <;> decide

/-- Witness of C5, amended: `-30` with bit width 16 is written as one byte. -/
theorem C5_fixnum_one_byte_witness :
    (-30 : Int) ≤ -30 ∧ (-30 : Int) ≤ 127 ∧
    ∃ b, b < 256 ∧ EncodeInt [] (-30) 16 = ([] ++ [b], .nil) :=
  ⟨by decide, by decide, C5_fixnum_one_byte [] (-30) 16 (by decide) (by decide)⟩

/-- C6 (the code departs from it): `EncodeInt(-33, w)` writes no signed envelope. For each
of the four widths it writes nothing and returns the fixnum out-of-bounds error, where the
claim has the bytes `d0 df`; and `-257`, which fits in 16 bits, is written as the single
byte `0xe1`. -/
theorem C6_negative_envelope_never_written :
    EncodeInt [] (-33) 8 = ([], .err .errFixNumOutOfBounds) ∧
    EncodeInt [] (-33) 16 = ([], .err .errFixNumOutOfBounds) ∧
    EncodeInt [] (-33) 32 = ([], .err .errFixNumOutOfBounds) ∧
    EncodeInt [] (-33) 64 = ([], .err .errFixNumOutOfBounds) ∧
    EncodeInt [] (-257) 16 = ([0xe1], .nil) := by
  decide

/-- C7 as stated fails: 128 fits in 16 bits and the smallest width that represents it is
8 bits, yet `EncodeUint(128, 16)` writes the 16-bit control byte `0xcd` and two payload
bytes, not `cc 80`. -/
theorem C7_width_from_bitWidth :
    (128 : Nat) < 2 ^ 16 ∧ (128 : Nat) < 2 ^ 8 ∧
    EncodeUint [] 128 16 = ([0xcd, 0x00, 0x80], .nil) := by
  decide

/-- C7, amended: for every unsigned value `v > 127` and every bit width in {8,16,32,64}
that `v` fits in, `EncodeUint(v, bitWidth)` writes the control byte of that bit width
(`0xcc/0xcd/0xce/0xcf`), whatever the smallest width that represents `v` is, followed by
exactly `bitWidth/8` payload bytes whose big-endian value is `v`. -/
theorem C7_uint_control_byte (wtr : Writer) (w v : Nat)
    (hw : w = 8 ∨ w = 16 ∨ w = 32 ∨ w = 64) (hv : 127 < v) (hfit : v < 2 ^ w) :
    ∃ payload : List Nat, payload.length = w / 8 ∧ ofLE payload.reverse = v ∧
      EncodeUint wtr v w =
        (wtr ++ (if w = 8 then Uint8 else if w = 16 then Uint16 else if w = 32 then Uint32
          else Uint64) :: payload, .nil) := by
  refine ⟨bigEndian (w / 8) v, bigEndian_length _ _, ofLE_reverse_bigEndian _ _ ?_, ?_⟩
  · rcases hw with rfl | rfl | rfl | rfl <;> simpa using hfit
  · rcases hw with rfl | rfl | rfl | rfl <;>
      simp [EncodeUint_large _ _ _ hv, tdiv_widths, Uint8, Uint16, Uint32, Uint64]

/-- Witness of C7, amended: 128 with bit width 8 gives `cc 80`. -/
theorem C7_uint_control_byte_witness :
    (127 : Nat) < 128 ∧ (128 : Nat) < 2 ^ 8 ∧
    ∃ payload : List Nat, payload.length = 8 / 8 ∧ ofLE payload.reverse = 128 ∧
      EncodeUint [] 128 (8 : Nat) = ([] ++ (if 8 = 8 then Uint8 else if 8 = 16 then Uint16
        else if 8 = 32 then Uint32 else Uint64) :: payload, .nil) :=
  ⟨by decide, by decide, C7_uint_control_byte [] 8 128 (by decide) (by decide) (by decide)⟩

/-- C8: for every value `v` with `0 ≤ v ≤ 127` and every bit width, `EncodeInt(v, bitWidth)`
and `EncodeUint(v, bitWidth)` both return no error and write exactly the single byte
`v`. -/
theorem C8_positive_fixnum (wtr : Writer) (v : Nat) (bitWidth : Int) (h : v ≤ 127) :
    EncodeInt wtr v bitWidth = (wtr ++ [v], .nil) ∧
    EncodeUint wtr v bitWidth = (wtr ++ [v], .nil) :=
  ⟨EncodeInt_fixpos wtr v bitWidth h, EncodeUint_fixpos wtr v bitWidth h⟩

/-- Witness of C8: 127 is written as `0x7f`. -/
theorem C8_positive_fixnum_witness :
    (127 : Nat) ≤ 127 ∧
    EncodeInt [] (127 : Nat) 8 = ([] ++ [0x7f], .nil) ∧
    EncodeUint [] 127 8 = ([] ++ [0x7f], .nil) :=
  ⟨by decide, C8_positive_fixnum [] 127 8 (by decide)⟩

/-- C9 as stated fails: `0xff` decodes to `-31`, where the claimed formula
`-(32 - (b & 0x1f))` gives `-1`; and `0xe0` decodes to `0`, where it gives `-32`. -/
theorem C9_ff_decodes_to_minus31 :
    (NewDecoder [0xff]).Token = (⟨[], false, FixInt⟩, .int8 (-31), .nil) ∧
    -(32 - (((0xff &&& 0x1f : Nat) : Int))) = -1 ∧
    (NewDecoder [0xe0]).Token = (⟨[], false, FixInt⟩, .int8 0, .nil) ∧
    -(32 - (((0xe0 &&& 0x1f : Nat) : Int))) = -32 := by
  decide

/-- C9, amended: for every control byte `b` in `0xe0..0xff`, `Decoder.Token` on a stream
starting with `b` consumes that byte and returns, without error, the `int8` token
`-(b & 0x1f)`, recording the kind `FixInt`. -/
theorem C9_negative_fixnum_token (b : Nat) (rest : List Nat) (h1 : 0xe0 ≤ b) (h2 : b ≤ 0xff) :
    (NewDecoder (b :: rest)).Token =
      (⟨rest, false, FixInt⟩, .int8 (-((b &&& 0x1f : Nat) : Int)), .nil) :=
  Token_fixint b rest false 0 h1 h2

/-- Witness of C9, amended: `0xe3` decodes to `-3`. -/
theorem C9_negative_fixnum_token_witness :
    0xe0 ≤ 0xe3 ∧ 0xe3 ≤ 0xff ∧
    (NewDecoder (0xe3 :: [])).Token = (⟨[], false, FixInt⟩, .int8 (-((0xe3 &&& 0x1f : Nat) : Int)), .nil) :=
  ⟨by decide, by decide, C9_negative_fixnum_token 0xe3 [] (by decide) (by decide)⟩

/-- C10 (the code departs from it): the magnitude 31 fits in five bits, `0xe0 | 31` is the
byte `0xff`, yet `encodeFixNumInt(-31)` and `EncodeInt(-31, w)` write nothing and return
the fixnum out-of-bounds error; `-30` and `-3` are written as `0xfe` and `0xe3`. -/
theorem C10_minus31_rejected :
    (31 : Nat) < 2 ^ 5 ∧ 0xe0 ||| 31 = 0xff ∧
    encodeFixNumInt [] (-31) = ([], .err .errFixNumOutOfBounds) ∧
    EncodeInt [] (-31) 8 = ([], .err .errFixNumOutOfBounds) ∧
    EncodeInt [] (-31) 64 = ([], .err .errFixNumOutOfBounds) ∧
    encodeFixNumInt [] (-30) = ([0xfe], .nil) ∧
    encodeFixNumInt [] (-3) = ([0xe3], .nil) := by
  decide

/-- C11: for every string `s` of byte length `l ≤ 4294967295`, `EncodeString` writes the
header of the smallest tier that fits `l` (`0xa0 | l` up to 31, `d9 l` up to 255, `da` and
`l` in 2 big-endian bytes up to 65535, `db` and `l` in 4 big-endian bytes otherwise) followed
by the `l` bytes of `s`; and for every blob `b` of such a length `EncodeBin` writes `c4 l`
up to 255 (also for 0), `c5` and 2 bytes up to 65535, `c6` and 4 bytes otherwise, followed
by the bytes of `b`. -/
theorem C11_string_and_bin_tiers (wtr : Writer) (s : List Nat) (h : s.length ≤ 4294967295) :
    EncodeString wtr s = (wtr ++ strHeader s.length ++ s, .nil) ∧
    EncodeBin wtr s = (wtr ++ binHeader s.length ++ s, .nil) := by
  rw [EncodeString_eq, EncodeBin_eq, if_pos h, if_pos h]
  exact ⟨rfl, rfl⟩

/-- Witness of C11: a string of length 31 gets `bf`, one of length 32 gets `d9 20`, and the
empty blob gets `c4 00`. -/
theorem C11_string_and_bin_tiers_witness :
    EncodeString [] (List.replicate 31 0x61) = (0xbf :: List.replicate 31 0x61, .nil) ∧
    EncodeString [] (List.replicate 32 0x61) = (0xd9 :: 0x20 :: List.replicate 32 0x61, .nil) ∧
    EncodeBin [] [] = ([0xc4, 0x00], .nil) :=
  ⟨(C11_string_and_bin_tiers [] (List.replicate 31 0x61) (by decide)).1,
   (C11_string_and_bin_tiers [] (List.replicate 32 0x61) (by decide)).1,
   (C11_string_and_bin_tiers [] [] (by decide)).2⟩

/-- C12: for every sequence of `n ≤ 4294967295` encodable elements, `Encoder.Encode` writes
the array header (`0x90 | n` up to 15, `dc` and `n` in 2 big-endian bytes up to 65535, `dd`
and `n` in 4 big-endian bytes otherwise) followed by the concatenation of the encodings
of the elements in index order; the empty sequence is encoded as the single byte `0x90`. -/
theorem C12_array_encoding (wtr : Writer) (elems : List GoValue)
    (hn : elems.length ≤ 4294967295) (henc : ∀ e ∈ elems, encodable e) :
    Encoder.Encode (.slice elems) wtr =
      (wtr ++ arrayHeader elems.length ++ (elems.map encoding).flatten, .nil) ∧
    Encoder.Encode (.slice []) wtr = (wtr ++ [0x90], .nil) := by
  constructor
  · simp only [Encoder.Encode, encodeArrayHeader_eq, if_pos hn]
    rw [encodeArrayLoop_eq elems _ henc]
  · simp [Encoder.Encode, encodeArrayHeader_eq, Encoder.encodeArrayLoop, arrayHeader]

/-- Witness of C12: the slice of `TestArray`. -/
theorem C12_array_encoding_witness :
    Encoder.Encode (.slice [.int (-3), .int 16500, .int 1048576, .int 0x0033ffaabbcceeff]) [] =
      ([0x94, 0xe3,
        0xd3, 0, 0, 0, 0, 0, 0, 0x40, 0x74,
        0xd3, 0, 0, 0, 0, 0, 0x10, 0, 0,
        0xd3, 0x00, 0x33, 0xff, 0xaa, 0xbb, 0xcc, 0xee, 0xff], .nil) :=
  (C12_array_encoding []
    [.int (-3), .int 16500, .int 1048576, .int 0x0033ffaabbcceeff] (by decide) (by decide)).1

/-- C13 (the code departs from it): the map `map[float64]int{NaN: 1}` has one pair, whose
key and value are both encodable, and the claim has the header `81` followed by the
encoding of the key and of the value. The code writes the header and panics: the key
is not equal to itself, so `MapIndex` does not find it and `Interface()` is called on
the zero `Value`. `Marshal` returns neither bytes nor an error. -/
theorem C13_nan_key_panics :
    encodable (.float64 0x7ff8000000000001) ∧ encodable (.int 1) ∧
    mapHeader 1 ++ (encoding (.float64 0x7ff8000000000001) ++ encoding (.int 1)) =
      [0x81, 0xca, 0x7f, 0xf8, 0, 0, 0, 0, 0, 0x01, 0x01] ∧
    Encoder.Encode (.map [(.float64 0x7ff8000000000001, .int 1)]) [] =
      ([0x81], .panicked "reflect: call of reflect.Value.Interface on zero Value") ∧
    Marshal (.map [(.float64 0x7ff8000000000001, .int 1)]) =
      (none, .panicked "reflect: call of reflect.Value.Interface on zero Value") := by
  decide

/-- C15 (the code departs from it): the struct of `TestOmitEmpty`, whose field `Omit` is
tagged `omit,omitempty` and holds a nil pointer, next to the untagged fields `Nil` and
`Make`, is encoded with the header `0x83` and three pairs, the first being the key "omit"
with the value nil (`c0`); the claim has the header `0x82` and two pairs. -/
theorem C15_zero_value_not_omitted :
    parseMsgPackTag (ascii "omit,omitempty") = (ascii "omit", true) ∧
    Marshal (.ptr (some (.struct [
        ⟨ascii "Omit", some (ascii "omit,omitempty"), true, .ptr none⟩,
        ⟨ascii "Nil", none, true, .ptr none⟩,
        ⟨ascii "Make", none, true, .ptr (some (.string (ascii "audi")))⟩]))) =
      (some ([0x83] ++
        (0xa4 :: ascii "omit") ++ [0xc0] ++
        (0xa3 :: ascii "Nil") ++ [0xc0] ++
        (0xa4 :: ascii "Make") ++ (0xa4 :: ascii "audi")), .nil) := by
  decide

/-- C16 (the code departs from it): for the struct with a field `A` tagged `,omitempty`
and a field `B`, holding 1 and 2, the header declares two pairs (`0x82`) and one pair
follows it, the key "B" with the value 2. -/
theorem C16_header_counts_skipped_field :
    Marshal (.struct [⟨ascii "A", some (ascii ",omitempty"), true, .int 1⟩,
        ⟨ascii "B", none, true, .int 2⟩]) =
      (some (mapHeader 2 ++ (encoding (.string (ascii "B")) ++ encoding (.int 2))), .nil) ∧
    mapHeader 2 = [0x82] ∧
    encoding (.string (ascii "B")) ++ encoding (.int 2) = [0xa1, 0x42, 0x02] := by
  decide

/-- C17 as stated fails: on the reserved byte `0xc1`, `Decoder.Token` returns a nil token
with a nil error, and `Decoder.Decode` returns no error and leaves the destination as it
was. -/
theorem C17_reserved_byte_no_error :
    (NewDecoder [0xc1]).Token = (⟨[], false, 0⟩, .nil, .nil) ∧
    (NewDecoder [0xc1]).Decode (.ptr (.int 64 7)) = (⟨[], false, 0⟩, .ptr (.int 64 7), .nil) := by
  decide

/-- C17, amended: for every stream whose first byte is a reserved or unassigned control
byte, `Decoder.Token` consumes that byte and returns a nil token with a nil error, and
`Decoder.Decode` into a variable returns no error and leaves the variable as it was. -/
theorem C17_reserved_byte_nil_token (c : Nat) (rest : List Nat) (d : RValue)
    (hc : reservedByte c) (hd : ∀ e, d ≠ .ptr e) :
    (NewDecoder (c :: rest)).Token = (⟨rest, false, 0⟩, .nil, .nil) ∧
    (NewDecoder (c :: rest)).Decode (.ptr d) = (⟨rest, false, 0⟩, .ptr d, .nil) := by
  have hb : 0x80 ≤ c ∧ c ≤ 0xdf ∧ (c < 0xcc ∨ 0xd3 < c) := by
    unfold reservedByte at hc; omega
  exact ⟨Token_unhandled c rest false 0 hb.1 hb.2.1 hb.2.2,
    Decode_unhandled c rest d hd hb.1 hb.2.1 hb.2.2⟩

/-- Witness of C17, amended: the byte `0xc7` in front of two more bytes, decoded into an
unsigned variable holding 9. -/
theorem C17_reserved_byte_nil_token_witness :
    reservedByte 0xc7 ∧
    (NewDecoder (0xc7 :: [1, 2])).Token = (⟨[1, 2], false, 0⟩, .nil, .nil) ∧
    (NewDecoder (0xc7 :: [1, 2])).Decode (.ptr (.uint 8 9)) =
      (⟨[1, 2], false, 0⟩, .ptr (.uint 8 9), .nil) :=
  ⟨by decide, C17_reserved_byte_nil_token 0xc7 [1, 2] (.uint 8 9) (by decide)
    (by intro e; simp)⟩

/-- C18 as stated fails: on a str8 header declaring length 10 followed by 3 bytes,
`Decoder.Token` returns a nil token with a nil error, having read the control byte
only. -/
theorem C18_str8_truncated_no_error :
    (NewDecoder [0xd9, 10, 0x61, 0x62, 0x63]).Token =
      (⟨[10, 0x61, 0x62, 0x63], false, 0⟩, .nil, .nil) := by
  decide

/-- C18, amended: for every stream whose control byte is one of the kinds
uint8..uint64 and int8..int64 (`0xcc..0xd3`) and which holds no further byte,
`Decoder.Token` returns the error `io.EOF` and no token; for a str8 header `Decoder.Token`
reads neither the length nor the payload and returns a nil token with a nil error,
whatever follows. -/
theorem C18_missing_payload (c : Nat) (rest : List Nat) (eof : Bool) (k : Kind)
    (h1 : 0xcc ≤ c) (h2 : c ≤ 0xd3) :
    Decoder.Token ⟨[c], eof, k⟩ = (⟨[], eof, k⟩, .nil, .err .EOF) ∧
    Decoder.Token ⟨0xd9 :: rest, eof, k⟩ = (⟨rest, eof, k⟩, .nil, .nil) := by
  refine ⟨?_, Token_unhandled 0xd9 rest eof k (by decide) (by decide) (by decide)⟩
  interval_cases c <;> rfl

/-- Witness of C18, amended: the uint32 control byte alone. -/
theorem C18_missing_payload_witness :
    0xcc ≤ 0xce ∧ 0xce ≤ 0xd3 ∧
    Decoder.Token ⟨[0xce], false, 0⟩ = (⟨[], false, 0⟩, .nil, .err .EOF) ∧
    Decoder.Token ⟨0xd9 :: [10, 0x61], false, 0⟩ = (⟨[10, 0x61], false, 0⟩, .nil, .nil) :=
  ⟨by decide, by decide, C18_missing_payload 0xce [10, 0x61] false 0 (by decide) (by decide)⟩

/-- C19 as stated fails: encoding a string of 4294967296 bytes panics and returns no
error value. -/
theorem C19_oversize_string_panics :
    EncodeString [] (List.replicate 4294967296 0x61) =
      ([], .panicked "String larger than 4 gigs!") := by
  have h : ¬ (List.replicate 4294967296 0x61).length ≤ 4294967295 := by
    rw [List.length_replicate]; omega
  rw [EncodeString_eq, if_neg h]

/-- C19, amended: for every string, byte blob, sequence or map whose length exceeds
4294967295, encoding it (`EncodeString`, `EncodeBin`, `encodeArray`, `encodeMapHeader`)
panics, with the message "String larger than 4 gigs!", "Binary larger than 4 gigs!" or
"Array size larger than 4294967295!", and writes nothing; no error is returned to the
caller. -/
theorem C19_oversize_panics (wtr : Writer) (s : List Nat) (elems : List GoValue)
    (pairs : List (GoValue × GoValue)) (l : Nat)
    (hs : 4294967295 < s.length) (he : 4294967295 < elems.length)
    (hp : 4294967295 < pairs.length) (hl : 4294967295 < l) :
    EncodeString wtr s = (wtr, .panicked "String larger than 4 gigs!") ∧
    EncodeBin wtr s = (wtr, .panicked "Binary larger than 4 gigs!") ∧
    Encoder.Encode (.slice elems) wtr = (wtr, .panicked "Array size larger than 4294967295!") ∧
    Encoder.Encode (.map pairs) wtr = (wtr, .panicked "Array size larger than 4294967295!") ∧
    encodeMapHeader wtr l = (wtr, .panicked "Array size larger than 4294967295!") := by
  refine ⟨?_, ?_, ?_, ?_, ?_⟩
  · rw [EncodeString_eq, if_neg (by omega)]
  · rw [EncodeBin_eq, if_neg (by omega)]
  · simp only [Encoder.Encode, encodeArrayHeader_eq, if_neg (by omega : ¬ elems.length ≤ 4294967295)]
  · simp only [Encoder.Encode, encodeMapHeader_eq, if_neg (by omega : ¬ pairs.length ≤ 4294967295)]
  · rw [encodeMapHeader_eq, if_neg (by omega)]

/-- Witness of C19, amended: a blob of 4294967296 bytes, a sequence of 4294967296 nils, a
map of 4294967296 pairs and the length 4294967296. -/
theorem C19_oversize_panics_witness :
    EncodeBin [] (List.replicate 4294967296 0) = ([], .panicked "Binary larger than 4 gigs!") ∧
    Encoder.Encode (.slice (List.replicate 4294967296 .nil)) [] =
      ([], .panicked "Array size larger than 4294967295!") ∧
    encodeMapHeader [] 4294967296 = ([], .panicked "Array size larger than 4294967295!") :=
  have h := C19_oversize_panics [] (List.replicate 4294967296 0)
    (List.replicate 4294967296 .nil) (List.replicate 4294967296 (.nil, .nil)) 4294967296
    (by rw [List.length_replicate]; omega) (by rw [List.length_replicate]; omega)
    (by rw [List.length_replicate]; omega) (by omega)
  ⟨h.2.1, h.2.2.1, h.2.2.2.2⟩

/-- C20 as stated fails: encoding a channel panics; `Marshal` returns neither bytes nor
an error value. -/
theorem C20_channel_panics :
    Encoder.Encode (.other "chan int") [] = ([], .panicked "Unhandled type chan int") ∧
    Marshal (.other "chan int") = (none, .panicked "Unhandled type chan int") := by
  decide

/-- C20, amended: for every host value of a type that `Encode` has no case for (a
channel, a function, a complex number), `Encoder.Encode` writes nothing and panics with
the message "Unhandled type" followed by the name of the type; it returns neither an
error nor success, also when the value is reached through a pointer. -/
theorem C20_unhandled_type_panics (wtr : Writer) (typeName : String) :
    Encoder.Encode (.other typeName) wtr = (wtr, .panicked ("Unhandled type " ++ typeName)) ∧
    Encoder.Encode (.ptr (some (.other typeName))) wtr =
      (wtr, .panicked ("Unhandled type " ++ typeName)) ∧
    Marshal (.other typeName) = (none, .panicked ("Unhandled type " ++ typeName)) := by
  simp [Marshal, Encoder.Encode]

/-- C21 (the code departs from it): `EncodeFloat64` writes the control byte `0xca`, the
one `EncodeFloat32` writes, followed by the 8 bytes of the bit pattern most significant
first; the claim has `0xcb` for it and distinct control bytes for the two widths. The
value 1.0 as a float64 (bits `3ff0000000000000`) is written `ca 3f f0 00 00 00 00 00 00`. -/
theorem C21_float64_control_byte (wtr : Writer) (f : Nat) :
    EncodeFloat64 wtr f = (wtr ++ 0xca :: bigEndian 8 f, .nil) ∧
    EncodeFloat32 wtr f = (wtr ++ 0xca :: bigEndian 4 f, .nil) ∧
    EncodeFloat64 [] 0x3ff0000000000000 = ([0xca, 0x3f, 0xf0, 0, 0, 0, 0, 0, 0], .nil) ∧
    EncodeFloat32 [] 0x3f800000 = ([0xca, 0x3f, 0x80, 0, 0], .nil) :=
  ⟨(EncodeFloat_eq wtr f).1, (EncodeFloat_eq wtr f).2, by decide, by decide⟩

/-- C22: for every list of unsigned values, each of a type of width 8, 16, 32 or 64 bits,
encoding them in order into one buffer and calling `Decoder.Token` once per value
returns, without error, a token holding each value, in order; each call reads exactly
the bytes written for its value and the buffer is empty after the last call. Above 127
the token has the width of the type and the kind reported is `Uint8`, `Uint16`, `Uint32`
or `Uint64`; up to 127 the kind reported is `FixUint`. -/
theorem C22_uint_token_stream (xs : List (Nat × Nat))
    (h : ∀ x ∈ xs, (x.1 = 8 ∨ x.1 = 16 ∨ x.1 = 32 ∨ x.1 = 64) ∧ x.2 < 2 ^ x.1) :
    ((NewDecoder (encodeEach (xs.map uintOf) [])).Tokens xs.length).2 = expectedTokens xs ∧
    ((NewDecoder (encodeEach (xs.map uintOf) [])).Tokens xs.length).1.rdr = [] :=
  Tokens_uint xs false 0 h

/-- Witness of C22: the four values of `TestUint` and the value 12. -/
theorem C22_uint_token_stream_witness :
    ((NewDecoder (encodeEach
        ([(8, 255), (16, 16500), (32, 1048576), (64, 0x0033ffaabbcceeff), (64, 12)].map uintOf)
        [])).Tokens
      [(8, 255), (16, 16500), (32, 1048576), (64, 0x0033ffaabbcceeff), (64, 12)].length).2 =
      [(.uint8 255, Uint8,
          [0xcd, 0x40, 0x74, 0xce, 0, 0x10, 0, 0,
           0xcf, 0x00, 0x33, 0xff, 0xaa, 0xbb, 0xcc, 0xee, 0xff, 12], .nil),
       (.uint16 16500, Uint16,
          [0xce, 0, 0x10, 0, 0, 0xcf, 0x00, 0x33, 0xff, 0xaa, 0xbb, 0xcc, 0xee, 0xff, 12], .nil),
       (.uint32 1048576, Uint32,
          [0xcf, 0x00, 0x33, 0xff, 0xaa, 0xbb, 0xcc, 0xee, 0xff, 12], .nil),
       (.uint64 0x0033ffaabbcceeff, Uint64, [12], .nil),
       (.uint8 12, FixUint, [], .nil)] :=
  (C22_uint_token_stream
    [(8, 255), (16, 16500), (32, 1048576), (64, 0x0033ffaabbcceeff), (64, 12)]
    (by decide)).1

/-- C23: encoding a nil pointer writes the single byte `0xc0`; encoding a non-nil pointer
writes what encoding the value pointed to writes (and returns what it returns), through
any number of pointer levels; a pointer, at any depth, to a nil pointer is written
`0xc0`. -/
theorem C23_pointer_encoding (wtr : Writer) (v : GoValue) (n : Nat) :
    Encoder.Encode (.ptr none) wtr = (wtr ++ [0xc0], .nil) ∧
    Encoder.Encode (.ptr (some v)) wtr = Encoder.Encode v wtr ∧
    Encoder.Encode (pointerTo n v) wtr = Encoder.Encode v wtr ∧
    Encoder.Encode (pointerTo n (.ptr none)) wtr = (wtr ++ [0xc0], .nil) := by
  have hnil : Encoder.Encode (.ptr none) wtr = (wtr ++ [0xc0], .nil) := by
    simp [Encoder.Encode, EncodeNil, writeByte, Writer.WriteByte]
  have hlev : ∀ (m : Nat) (u : GoValue),
      Encoder.Encode (pointerTo m u) wtr = Encoder.Encode u wtr := by
    intro m u
    induction m with
    | zero => rfl
    | succ m ih => simp only [pointerTo, Encoder.Encode, ih]
  refine ⟨hnil, by simp only [Encoder.Encode], hlev n v, ?_⟩
  rw [hlev n (.ptr none), hnil]

/-- C24: `EncodeBool` writes exactly one byte and returns no error, `0xc3` for true and
`0xc2` for false; encoding true and then false into one buffer gives `c3 c2`. -/
theorem C24_bool_encoding (wtr : Writer) :
    EncodeBool wtr true = (wtr ++ [0xc3], .nil) ∧
    EncodeBool wtr false = (wtr ++ [0xc2], .nil) ∧
    encodeEach [.bool true, .bool false] [] = [0xc3, 0xc2] :=
  ⟨rfl, rfl, by decide⟩

/-- C25: for every name that contains no comma and neither starts nor ends with white
space, `parseMsgPackTag(name)` returns `(name, false)` and
`parseMsgPackTag(name + ",omitempty")` returns `(name, true)`; and
`parseMsgPackTag(",omitempty")` returns `("", true)`. -/
theorem C25_tag_parsing (name : List Nat) (hc : 0x2c ∉ name)
    (hl : hasLeadingSpace name = false) (ht : hasTrailingSpace name = false) :
    parseMsgPackTag name = (name, false) ∧
    parseMsgPackTag (name ++ ascii ",omitempty") = (name, true) ∧
    parseMsgPackTag (ascii ",omitempty") = ([], true) := by
  have e : name ++ ascii ",omitempty" = name ++ 0x2c :: ascii "omitempty" := rfl
  have s2 : splitComma (ascii "omitempty") = [ascii "omitempty"] := by decide
  have t2 : TrimSpace (ascii "omitempty") = ascii "omitempty" := by decide
  have t1 := TrimSpace_id name hl ht
  refine ⟨?_, ?_, by decide⟩
  · simp [parseMsgPackTag, splitComma_no_comma name hc, t1]
  · rw [e]
    simp only [parseMsgPackTag, splitComma_append name _ hc, s2]
    simp [t1, t2]
    rfl

/-- Witness of C25: the name "test". -/
theorem C25_tag_parsing_witness :
    parseMsgPackTag (ascii "test") = (ascii "test", false) ∧
    parseMsgPackTag (ascii "test" ++ ascii ",omitempty") = (ascii "test", true) ∧
    parseMsgPackTag (ascii ",omitempty") = ([], true) :=
  C25_tag_parsing (ascii "test") (by decide) (by decide) (by decide)

/-- C26: for every negative int64 `v` and every bit width, `EncodeInt(v, bitWidth)` writes
no signed envelope: the result is decided by the low 8 bits of `v` alone. When they are at
most `0x7f` the single byte written is those bits; when they are the two's complement of a
magnitude `m` with `1 ≤ m ≤ 30` it is `0xe0 | m`; otherwise nothing is written and the
fixnum out-of-bounds error is returned. Two negative values congruent modulo 256 give the
same result. -/
theorem C26_negative_by_low_byte (wtr : Writer) (v bitWidth : Int)
    (hneg : v < 0) (hmin : -2 ^ 63 ≤ v) :
    EncodeInt wtr v bitWidth =
      (if uint8 v ≤ 0x7f then (wtr ++ [uint8 v], .nil)
       else if 256 - 30 ≤ uint8 v then (wtr ++ [0xe0 ||| (256 - uint8 v)], .nil)
       else (wtr, .err .errFixNumOutOfBounds)) ∧
    (∀ v2 : Int, v2 < 0 → -2 ^ 63 ≤ v2 → v2 % 256 = v % 256 →
      EncodeInt wtr v2 bitWidth = EncodeInt wtr v bitWidth) := by
  have key : ∀ x : Int, x < 0 → -2 ^ 63 ≤ x → EncodeInt wtr x bitWidth =
      (if uint8 x ≤ 0x7f then (wtr ++ [uint8 x], .nil)
       else if 256 - 30 ≤ uint8 x then (wtr ++ [0xe0 ||| (256 - uint8 x)], .nil)
       else (wtr, .err .errFixNumOutOfBounds)) := by
    intro x hx1 hx2
    rw [EncodeInt_negative wtr x bitWidth hx1 hx2, int8_of_uint8,
      encodeFixNumInt_bits wtr (uint8 x) (uint8_lt x)]
  refine ⟨key v hneg hmin, ?_⟩
  intro v2 h1 h2 hmod
  have hu : uint8 v2 = uint8 v := by
    unfold uint8 toUnsigned
    have : (2 : Int) ^ 8 = 256 := by norm_num
    rw [this, hmod]
  rw [key v2 h1 h2, key v hneg hmin, hu]

/-- Witness of C26: `-257`, whose low 8 bits are `0xff`, with bit width 16 is written as
the single byte `0xe1`, as `-1` is. -/
theorem C26_negative_by_low_byte_witness :
    (-257 : Int) < 0 ∧ -2 ^ 63 ≤ (-257 : Int) ∧
    EncodeInt [] (-257) 16 =
      (if uint8 (-257) ≤ 0x7f then ([] ++ [uint8 (-257)], .nil)
       else if 256 - 30 ≤ uint8 (-257) then ([] ++ [0xe0 ||| (256 - uint8 (-257))], .nil)
       else ([], .err .errFixNumOutOfBounds)) ∧
    EncodeInt [] (-1) 16 = EncodeInt [] (-257) 16 :=
  ⟨by decide, by decide,
   (C26_negative_by_low_byte [] (-257) 16 (by decide) (by decide)).1,
   (C26_negative_by_low_byte [] (-257) 16 (by decide) (by decide)).2 (-1)
     (by decide) (by decide) (by decide)⟩

/-- C27: for every int8 `val` for which `encodeFixNumInt` returns no error, it wrote a
single byte, and `Decoder.Token` on that byte returns, without error, a token holding
`val` (a `uint8` token when `val ≥ 0`, an `int8` token when `val < 0`), the kind reported
being `FixUint` when `val ≥ 0` and `FixInt` when `val < 0`. -/
theorem C27_fixnum_round_trip (val : Int) (h1 : -128 ≤ val) (h2 : val ≤ 127)
    (hok : (encodeFixNumInt [] val).2 = .nil) :
    ∃ b, (encodeFixNumInt [] val).1 = [b] ∧
      (NewDecoder [b]).Token =
        (⟨[], false, if 0 ≤ val then FixUint else FixInt⟩,
         if 0 ≤ val then .uint8 val.toNat else .int8 val, .nil) ∧
      ((NewDecoder [b]).Token).1.Kind = (if 0 ≤ val then FixUint else FixInt) := by
  rw [encodeFixNumInt_eq [] val h1 h2] at hok ⊢
  by_cases hp : 0 ≤ val
  · have ht := Token_fixuint val.toNat [] false 0 (by omega)
    refine ⟨val.toNat, by simp [hp], ?_, ?_⟩
    · simp only [NewDecoder, if_pos hp]; exact ht
    · simp only [NewDecoder, if_pos hp, ht, Decoder.Kind]
  · by_cases hn : -30 ≤ val
    · obtain ⟨hlow, hlo, hhi⟩ := fixint_low5 (-val).toNat (by omega)
      have ht := Token_fixint (0xe0 ||| (-val).toNat) [] false 0 hlo hhi
      rw [hlow] at ht
      have hv : -(((-val).toNat : Nat) : Int) = val := by omega
      rw [hv] at ht
      refine ⟨0xe0 ||| (-val).toNat, by simp [hp, hn], ?_, ?_⟩
      · simp only [NewDecoder, if_neg hp]; exact ht
      · simp only [NewDecoder, if_neg hp, ht, Decoder.Kind]
    · simp [hp, hn] at hok

/-- Witness of C27: `-3` is written `0xe3`, which decodes to `-3`. -/
theorem C27_fixnum_round_trip_witness :
    (encodeFixNumInt [] (-3)).2 = .nil ∧
    ∃ b, (encodeFixNumInt [] (-3)).1 = [b] ∧
      (NewDecoder [b]).Token =
        (⟨[], false, if (0 : Int) ≤ -3 then FixUint else FixInt⟩,
         if (0 : Int) ≤ -3 then .uint8 (-3 : Int).toNat else .int8 (-3), .nil) ∧
      ((NewDecoder [b]).Token).1.Kind = (if (0 : Int) ≤ -3 then FixUint else FixInt) :=
  ⟨by decide, C27_fixnum_round_trip (-3) (by decide) (by decide) (by decide)⟩

end Msgpack
